import Mathlib

set_option maxRecDepth 100000

/-!
# Verification of the palette-lookup dictionary generator

Shallow embedding of `ss1/content/movie/internal/compression/PaletteLookupGenerator.go`:
a 256-bit palette-key bitset, a nested packing heuristic, the `Generate` pipeline and
the per-tile `Lookup` query, together with proofs of the specified properties.

Machine integers (`uint64`, `byte`) are modelled as `Nat`; the four-word bitset is a
`List Nat` of length 4 whose entries stay below `2^64`.  Go's map iteration order is
nondeterministic, so the sets handled by `Generate` are embedded as lists and theorems
quantify over the list.  The goroutine-based memoised search of `populate` is a pure
function of the key and the candidate pool; it is embedded directly, with a fuel
argument bounding the (finite) recursion depth.
-/

/-- Modelled from the spec: `PixelPerTile` is a compile-time constant of the
`compression` package that is not part of the extracted sources; the spec fixes it
to 16 in practice.  A tile delta is a fixed-length sequence of `PixelPerTile`
palette indices, each a byte. -/
def PixelPerTile : Nat := 16

/-- The 256-bit palette key: four 64-bit words plus a cached cardinality,
as in the Go struct `tilePaletteKey`. -/
structure tilePaletteKey where
  usedColors : List Nat
  size : Nat
deriving DecidableEq, Repr

/-- The Go zero value `var key tilePaletteKey`. -/
def emptyKey : tilePaletteKey := ⟨[0, 0, 0, 0], 0⟩

namespace tilePaletteKey

/-- Word `i` of the bitset (reading `key.usedColors[i]`). -/
def word (key : tilePaletteKey) (i : Nat) : Nat := key.usedColors.getD i 0

/-- `hasColor`: `(key.usedColors[index/64] & (1 << uint(index%64))) != 0`. -/
def hasColor (key : tilePaletteKey) (index : Nat) : Bool :=
  (key.word (index / 64)) &&& (1 <<< (index % 64)) != 0

/-- `useColor`: idempotent insert, incrementing the cached size on new colors. -/
def useColor (key : tilePaletteKey) (index : Nat) : tilePaletteKey :=
  if key.hasColor index then key
  else ⟨key.usedColors.set (index / 64)
          ((key.word (index / 64)) ||| (1 <<< (index % 64))),
        key.size + 1⟩

/-- All 64 bits set: the value of Go's unary complement `^x` on `uint64` is
`x ^^^ word64max`. -/
def word64max : Nat := 2 ^ 64 - 1

/-- `contains`: `(^key.usedColors[i] & other.usedColors[i]) == 0` for the four words. -/
def contains (key other : tilePaletteKey) : Bool :=
  ((key.word 0 ^^^ word64max) &&& other.word 0 == 0) &&
  ((key.word 1 ^^^ word64max) &&& other.word 1 == 0) &&
  ((key.word 2 ^^^ word64max) &&& other.word 2 == 0) &&
  ((key.word 3 ^^^ word64max) &&& other.word 3 == 0)

/-- `without`: loop over all 256 colors, inserting those of `key` not in `other`
into a fresh key. -/
def without (key other : tilePaletteKey) : tilePaletteKey :=
  (List.range 256).foldl
    (fun result i => if key.hasColor i && !(other.hasColor i) then result.useColor i else result)
    emptyKey

/-- `buffer`: the bytes of the set in ascending order. -/
def buffer (key : tilePaletteKey) : List Nat :=
  (List.range 256).foldl
    (fun result i => if key.hasColor i then result ++ [i] else result) []

end tilePaletteKey

/-- Building a key from a color sequence, as the loops
`for _, pal := range tile { key.useColor(pal) }` do. -/
def keyOf (colors : List Nat) : tilePaletteKey := colors.foldl tilePaletteKey.useColor emptyKey

/-- `joinedBuffer`: the source bytes verbatim, then the remaining colors of the key
in ascending order. -/
def tilePaletteKey.joinedBuffer (key : tilePaletteKey) (source : List Nat) : List Nat :=
  let addedColors := keyOf source
  source ++ (List.range 256).foldl
    (fun result color =>
      if key.hasColor color && !(addedColors.hasColor color) then result ++ [color] else result) []

/-- The four words exist and each fits in 64 bits. -/
def wellFormedKey (key : tilePaletteKey) : Prop :=
  key.usedColors.length = 4 ∧ ∀ w ∈ key.usedColors, w < 2 ^ 64

/-- The number of colors a key really holds. -/
def sizeSpec (key : tilePaletteKey) : Nat :=
  (List.range 256).countP (fun c => key.hasColor c)

/-- A key is good when its words are well-formed and the cached `size` is the
true cardinality. -/
def goodKey (key : tilePaletteKey) : Prop :=
  wellFormedKey key ∧ key.size = sizeSpec key

/- ### Basic facts about the bitset operations -/

theorem emptyKey_word (i : Nat) : emptyKey.word i = 0 := by
  rcases i with _ | _ | _ | _ | i <;> rfl

@[simp] theorem hasColor_empty (c : Nat) : emptyKey.hasColor c = false := by
  simp [tilePaletteKey.hasColor, emptyKey_word]

theorem wellFormed_empty : wellFormedKey emptyKey := by
  constructor
  · rfl
  · intro w hw
    simp [emptyKey] at hw
    omega

theorem goodKey_empty : goodKey emptyKey := by
  refine ⟨wellFormed_empty, ?_⟩
  decide

/-- `hasColor` through the word representation. -/
theorem hasColor_eq_testBit (key : tilePaletteKey) (c : Nat) :
    key.hasColor c = (key.word (c / 64)).testBit (c % 64) := by
  unfold tilePaletteKey.hasColor
  rcases h : (key.word (c / 64)).testBit (c % 64) with _ | _
  · rw [bne_eq_false_iff_eq]
    have : key.word (c / 64) &&& 2 ^ (c % 64) = 0 := by
      apply Nat.eq_of_testBit_eq
      intro i
      simp only [Nat.testBit_and, Nat.zero_testBit]
      rcases eq_or_ne i (c % 64) with rfl | hne
      · simp [h]
      · simp [Nat.testBit_two_pow_of_ne (fun hh => hne hh.symm)]
    simpa [Nat.shiftLeft_eq] using this
  · simp only [bne_iff_ne, ne_eq]
    intro hzero
    have := congrArg (fun n => n.testBit (c % 64)) hzero
    simp [Nat.testBit_and, h, Nat.shiftLeft_eq, Nat.testBit_two_pow_self] at this

theorem hasColor_of_ge (key : tilePaletteKey) (hwf : key.usedColors.length = 4)
    {c : Nat} (hc : 256 ≤ c) : key.hasColor c = false := by
  have hword : key.word (c / 64) = 0 := by
    unfold tilePaletteKey.word
    rw [List.getD_eq_getElem?_getD, List.getElem?_eq_none (by omega)]
    rfl
  simp [hasColor_eq_testBit, hword]

theorem word_lt (key : tilePaletteKey) (hwf : wellFormedKey key) (i : Nat) :
    key.word i < 2 ^ 64 := by
  obtain ⟨hlen, hbound⟩ := hwf
  unfold tilePaletteKey.word
  rcases Nat.lt_or_ge i key.usedColors.length with h | h
  · rw [List.getD_eq_getElem?_getD, List.getElem?_eq_getElem h]
    exact hbound _ (List.getElem_mem h)
  · rw [List.getD_eq_getElem?_getD, List.getElem?_eq_none h]
    simp

theorem word_useColor (key : tilePaletteKey) {c : Nat} (hc : c < 256)
    (hwf : key.usedColors.length = 4) (i : Nat) :
    (key.useColor c).word i =
      if key.hasColor c then key.word i
      else if i = c / 64 then key.word (c / 64) ||| (1 <<< (c % 64)) else key.word i := by
  unfold tilePaletteKey.useColor
  split
  · simp_all
  · next h =>
    simp only [tilePaletteKey.word]
    rcases eq_or_ne i (c / 64) with rfl | hne
    · rw [if_pos rfl, List.getD_eq_getElem?_getD,
        List.getElem?_set_self (by omega)]
      rfl
    · rw [if_neg hne, List.getD_eq_getElem?_getD,
        List.getElem?_set_ne (fun hh => hne hh.symm), ← List.getD_eq_getElem?_getD]

theorem hasColor_useColor (key : tilePaletteKey) {c : Nat} (hc : c < 256)
    (hwf : key.usedColors.length = 4) (d : Nat) :
    (key.useColor c).hasColor d = (key.hasColor d || d == c) := by
  rcases hhc : key.hasColor c with _ | _
  · rw [hasColor_eq_testBit, word_useColor key hc hwf, hhc]
    simp only [Bool.false_eq_true, if_false]
    rcases eq_or_ne (d / 64) (c / 64) with heq | hne
    · rw [if_pos heq]
      rw [Nat.shiftLeft_eq, one_mul, Nat.testBit_or, Nat.testBit_two_pow]
      rw [hasColor_eq_testBit, heq]
      rcases eq_or_ne d c with rfl | hdc
      · simp
      · have hmne : ¬ (c % 64 = d % 64) := by
          intro h2
          omega
        simp [hmne, hdc]
    · rw [if_neg hne, ← hasColor_eq_testBit]
      have hdc : d ≠ c := by omega
      simp [hdc]
  · rw [tilePaletteKey.useColor, if_pos hhc]
    rcases eq_or_ne d c with rfl | hdc
    · simp [hhc]
    · simp [hdc]

theorem wellFormed_useColor (key : tilePaletteKey) {c : Nat} (hc : c < 256)
    (hwf : wellFormedKey key) : wellFormedKey (key.useColor c) := by
  obtain ⟨hlen, hbound⟩ := hwf
  unfold tilePaletteKey.useColor
  split
  · exact ⟨hlen, hbound⟩
  · constructor
    · simpa using hlen
    · intro w hw
      rcases List.mem_or_eq_of_mem_set hw with h | h
      · exact hbound w h
      · subst h
        apply Nat.or_lt_two_pow (word_lt key ⟨hlen, hbound⟩ _)
        rw [Nat.shiftLeft_eq, one_mul]
        exact Nat.pow_lt_pow_right (by omega) (by omega)

/- ### The `contains` test is the superset relation -/

/-- Color-level subset between keys. -/
def keySub (a b : tilePaletteKey) : Prop :=
  ∀ c, a.hasColor c = true → b.hasColor c = true

theorem and_eq_zero_iff_testBit {a b : Nat} :
    a &&& b = 0 ↔ ∀ j, ¬(a.testBit j = true ∧ b.testBit j = true) := by
  constructor
  · intro h j hj
    have := congrArg (fun n => n.testBit j) h
    simp [Nat.testBit_and, hj.1, hj.2] at this
  · intro h
    apply Nat.eq_of_testBit_eq
    intro j
    simp only [Nat.testBit_and, Nat.zero_testBit]
    rcases hja : a.testBit j with _ | _
    · simp
    · rcases hjb : b.testBit j with _ | _
      · simp
      · exact absurd ⟨hja, hjb⟩ (h j)

theorem testBit_ge_64 {v : Nat} (hv : v < 2 ^ 64) {j : Nat} (hj : 64 ≤ j) :
    v.testBit j = false :=
  Nat.testBit_lt_two_pow (lt_of_lt_of_le hv (Nat.pow_le_pow_right (by omega) hj))

theorem compl_and_eq_zero_iff {w v : Nat} (hw : w < 2 ^ 64) (hv : v < 2 ^ 64) :
    ((((w ^^^ tilePaletteKey.word64max) &&& v) == 0) = true) ↔
      ∀ j, v.testBit j = true → w.testBit j = true := by
  rw [beq_iff_eq, and_eq_zero_iff_testBit]
  have hmax : ∀ j, tilePaletteKey.word64max.testBit j = decide (j < 64) := by
    intro j
    rw [show tilePaletteKey.word64max = 2 ^ 64 - 1 from rfl, Nat.testBit_two_pow_sub_one]
  constructor
  · intro h j hj
    have hj64 : j < 64 := by
      by_contra h64
      rw [testBit_ge_64 hv (by omega)] at hj
      exact Bool.false_ne_true hj
    by_contra hwj
    rw [Bool.not_eq_true] at hwj
    apply h j
    refine ⟨?_, hj⟩
    rw [Nat.testBit_xor, hmax j, hwj]
    simp [hj64]
  · rintro h j ⟨hxor, hvj⟩
    have hj64 : j < 64 := by
      by_contra h64
      rw [testBit_ge_64 hv (by omega)] at hvj
      exact Bool.false_ne_true hvj
    have hwj := h j hvj
    rw [Nat.testBit_xor, hmax j, hwj] at hxor
    simp [hj64] at hxor

theorem keySub_word {A B : tilePaletteKey} (hsub : keySub B A)
    (hB : wellFormedKey B) (i : Nat) :
    ∀ j, (B.word i).testBit j = true → (A.word i).testBit j = true := by
  intro j hj
  have hj64 : j < 64 := by
    by_contra h64
    rw [testBit_ge_64 (word_lt B hB i) (by omega)] at hj
    exact Bool.false_ne_true hj
  have h1 : (64 * i + j) / 64 = i := by omega
  have h2 : (64 * i + j) % 64 = j := by omega
  have hb : B.hasColor (64 * i + j) = true := by
    rw [hasColor_eq_testBit, h1, h2]
    exact hj
  have ha := hsub _ hb
  rwa [hasColor_eq_testBit, h1, h2] at ha

/-- The Go bitwise containment test decides exactly the superset relation. -/
theorem contains_iff {A B : tilePaletteKey} (hA : wellFormedKey A) (hB : wellFormedKey B) :
    (A.contains B = true) ↔ keySub B A := by
  unfold tilePaletteKey.contains
  simp only [Bool.and_eq_true]
  rw [compl_and_eq_zero_iff (word_lt A hA 0) (word_lt B hB 0),
    compl_and_eq_zero_iff (word_lt A hA 1) (word_lt B hB 1),
    compl_and_eq_zero_iff (word_lt A hA 2) (word_lt B hB 2),
    compl_and_eq_zero_iff (word_lt A hA 3) (word_lt B hB 3)]
  constructor
  · rintro ⟨⟨⟨h0, h1⟩, h2⟩, h3⟩ c hc
    rcases Nat.lt_or_ge c 256 with hc256 | hc256
    · rw [hasColor_eq_testBit] at hc ⊢
      have h4 : c / 64 = 0 ∨ c / 64 = 1 ∨ c / 64 = 2 ∨ c / 64 = 3 := by omega
      rcases h4 with h | h | h | h <;> rw [h] at hc ⊢
      · exact h0 _ hc
      · exact h1 _ hc
      · exact h2 _ hc
      · exact h3 _ hc
    · rw [hasColor_of_ge B hB.1 hc256] at hc
      exact absurd hc (by simp)
  · intro hsub
    exact ⟨⟨⟨keySub_word hsub hB 0, keySub_word hsub hB 1⟩,
      keySub_word hsub hB 2⟩, keySub_word hsub hB 3⟩

/- ### Counting machinery for `size` -/

theorem countP_extend {l : List Nat} {p : Nat → Bool} {c : Nat}
    (hnd : l.Nodup) (hc : c ∈ l) (hpc : p c = false) :
    l.countP (fun d => p d || (d == c)) = l.countP p + 1 := by
  induction l with
  | nil => cases hc
  | cons a t ih =>
    rcases List.mem_cons.mp hc with rfl | hct
    · have hnotin : c ∉ t := (List.nodup_cons.mp hnd).1
      rw [List.countP_cons_of_pos _ _ (by simp), List.countP_cons_of_neg _ _ (by simp [hpc])]
      have heq : t.countP (fun d => p d || (d == c)) = t.countP p := by
        apply List.countP_congr
        intro x hx
        have hxc : x ≠ c := fun h => hnotin (h ▸ hx)
        simp [hxc]
      omega
    · have hac : (a == c) = false := by
        have : a ≠ c := by
          rintro rfl
          exact (List.nodup_cons.mp hnd).1 hct
        simp [this]
      rw [List.countP_cons, List.countP_cons,
        ih (List.nodup_cons.mp hnd).2 hct]
      simp only [hac, Bool.or_false]
      omega

theorem countP_eq_pointwise {l : List Nat} {p q : Nat → Bool}
    (himp : ∀ x ∈ l, p x = true → q x = true) (hle : l.countP q ≤ l.countP p) :
    ∀ x ∈ l, q x = p x := by
  induction l with
  | nil => intro x hx; cases hx
  | cons a t ih =>
    intro x hx
    have hmono : t.countP p ≤ t.countP q :=
      List.countP_mono_left (fun y hy => himp y (by simp [hy]))
    rw [List.countP_cons, List.countP_cons] at hle
    rcases hpa : p a with _ | _ <;> rcases hqa : q a with _ | _
    · rw [hpa, hqa] at hle
      simp at hle
      rcases List.mem_cons.mp hx with rfl | hxt
      · rw [hpa, hqa]
      · exact ih (fun y hy => himp y (by simp [hy])) (by omega) x hxt
    · rw [hpa, hqa] at hle
      simp at hle
      omega
    · have := himp a (by simp) hpa
      rw [this] at hqa
      cases hqa
    · rcases List.mem_cons.mp hx with rfl | hxt
      · rw [hpa, hqa]
      · rw [hpa, hqa] at hle
        simp at hle
        exact ih (fun y hy => himp y (by simp [hy])) (by omega) x hxt

theorem goodKey_useColor (key : tilePaletteKey) {c : Nat} (hc : c < 256)
    (h : goodKey key) : goodKey (key.useColor c) := by
  obtain ⟨hwf, hsize⟩ := h
  refine ⟨wellFormed_useColor key hc hwf, ?_⟩
  rcases hhc : key.hasColor c with _ | _
  · have hsz : (key.useColor c).size = key.size + 1 := by
      unfold tilePaletteKey.useColor
      rw [if_neg (by simp [hhc])]
    have hcongr : (List.range 256).countP (fun d => (key.useColor c).hasColor d)
        = (List.range 256).countP (fun d => key.hasColor d || (d == c)) :=
      List.countP_congr (fun d _ => by rw [hasColor_useColor key hc hwf.1 d])
    have hext := @countP_extend (List.range 256) (fun d => key.hasColor d) c
      (List.nodup_range 256) (List.mem_range.mpr hc) hhc
    unfold sizeSpec at hsize ⊢
    rw [hcongr, hext, hsz, hsize]
  · have : key.useColor c = key := by
      unfold tilePaletteKey.useColor
      rw [if_pos hhc]
    rw [this]
    exact hsize

/- ### Folding `useColor` over a color list -/

theorem foldl_useColor_spec (l : List Nat) (hl : ∀ c ∈ l, c < 256) :
    ∀ k : tilePaletteKey, wellFormedKey k →
      wellFormedKey (l.foldl tilePaletteKey.useColor k) ∧
      (∀ d, (l.foldl tilePaletteKey.useColor k).hasColor d
          = (k.hasColor d || decide (d ∈ l))) := by
  induction l with
  | nil =>
    intro k hk
    exact ⟨hk, fun d => by simp⟩
  | cons c t ih =>
    intro k hk
    have hc : c < 256 := hl c (by simp)
    have hk' := wellFormed_useColor k hc hk
    obtain ⟨hwf, hhas⟩ := ih (fun x hx => hl x (by simp [hx])) (k.useColor c) hk'
    refine ⟨hwf, fun d => ?_⟩
    rw [List.foldl_cons, hhas d, hasColor_useColor k hc hk.1 d]
    rcases eq_or_ne d c with rfl | hdc
    · simp [List.mem_cons]
    · have h1 : (d == c) = false := by simp [hdc]
      have h2 : decide (d ∈ c :: t) = decide (d ∈ t) := by
        simp [List.mem_cons, hdc]
      rw [h1, h2]
      simp [Bool.or_assoc]

theorem goodKey_foldl_useColor (l : List Nat) (hl : ∀ c ∈ l, c < 256) :
    ∀ k, goodKey k → goodKey (l.foldl tilePaletteKey.useColor k) := by
  induction l with
  | nil => exact fun k hk => hk
  | cons c t ih =>
    intro k hk
    exact ih (fun x hx => hl x (by simp [hx])) _ (goodKey_useColor k (hl c (by simp)) hk)

theorem wellFormed_keyOf (l : List Nat) (hl : ∀ c ∈ l, c < 256) :
    wellFormedKey (keyOf l) :=
  (foldl_useColor_spec l hl emptyKey wellFormed_empty).1

theorem hasColor_keyOf (l : List Nat) (hl : ∀ c ∈ l, c < 256) (d : Nat) :
    (keyOf l).hasColor d = decide (d ∈ l) := by
  have := (foldl_useColor_spec l hl emptyKey wellFormed_empty).2 d
  simpa using this

theorem goodKey_keyOf (l : List Nat) (hl : ∀ c ∈ l, c < 256) : goodKey (keyOf l) :=
  goodKey_foldl_useColor l hl emptyKey goodKey_empty

theorem foldl_useColor_size_le (l : List Nat) :
    ∀ k : tilePaletteKey, (l.foldl tilePaletteKey.useColor k).size ≤ k.size + l.length := by
  induction l with
  | nil => intro k; simp
  | cons c t ih =>
    intro k
    have h1 : (k.useColor c).size ≤ k.size + 1 := by
      unfold tilePaletteKey.useColor
      split <;> simp
    have := ih (k.useColor c)
    rw [List.foldl_cons]
    simp only [List.length_cons]
    omega

theorem foldl_useColor_size_nodup (l : List Nat) (hl : ∀ c ∈ l, c < 256) (hnd : l.Nodup) :
    ∀ k : tilePaletteKey, wellFormedKey k → (∀ c ∈ l, k.hasColor c = false) →
      (l.foldl tilePaletteKey.useColor k).size = k.size + l.length := by
  induction l with
  | nil => intro k _ _; simp
  | cons c t ih =>
    intro k hk hfresh
    have hc : c < 256 := hl c (by simp)
    have hkc : k.hasColor c = false := hfresh c (by simp)
    have hsz : (k.useColor c).size = k.size + 1 := by
      unfold tilePaletteKey.useColor
      rw [if_neg (by simp [hkc])]
    have hfresh' : ∀ x ∈ t, (k.useColor c).hasColor x = false := by
      intro x hx
      rw [hasColor_useColor k hc hk.1 x, hfresh x (by simp [hx])]
      have hxc : x ≠ c := by
        rintro rfl
        exact (List.nodup_cons.mp hnd).1 hx
      simp [hxc]
    rw [List.foldl_cons,
      ih (fun x hx => hl x (by simp [hx])) (List.nodup_cons.mp hnd).2
        (k.useColor c) (wellFormed_useColor k hc hk) hfresh']
    simp only [List.length_cons]
    omega

theorem foldl_useColor_size_lt (l : List Nat) (hl : ∀ c ∈ l, c < 256) :
    ∀ k : tilePaletteKey, wellFormedKey k →
      ¬(l.Nodup ∧ ∀ c ∈ l, k.hasColor c = false) →
      (l.foldl tilePaletteKey.useColor k).size < k.size + l.length := by
  induction l with
  | nil =>
    intro k _ hbad
    exact absurd ⟨List.nodup_nil, by simp⟩ hbad
  | cons c t ih =>
    intro k hk hbad
    have hc : c < 256 := hl c (by simp)
    rcases hkc : k.hasColor c with _ | _
    · -- the head color is new, so the failure lies in the tail
      have hsz : (k.useColor c).size = k.size + 1 := by
        unfold tilePaletteKey.useColor
        rw [if_neg (by simp [hkc])]
      have hbad' : ¬(t.Nodup ∧ ∀ x ∈ t, (k.useColor c).hasColor x = false) := by
        rintro ⟨hndt, hfresh'⟩
        apply hbad
        have hcnott : c ∉ t := by
          intro hct
          have := hfresh' c hct
          rw [hasColor_useColor k hc hk.1 c] at this
          simp at this
        refine ⟨List.nodup_cons.mpr ⟨hcnott, hndt⟩, ?_⟩
        intro x hx
        rcases List.mem_cons.mp hx with rfl | hxt
        · exact hkc
        · have := hfresh' x hxt
          rw [hasColor_useColor k hc hk.1 x] at this
          rcases hkx : k.hasColor x with _ | _
          · rfl
          · rw [hkx] at this
            simp at this
      have := ih (fun x hx => hl x (by simp [hx])) (k.useColor c)
        (wellFormed_useColor k hc hk) hbad'
      rw [List.foldl_cons]
      simp only [List.length_cons]
      omega
    · -- the head color is already present: the plain upper bound is already strict
      have hsame : k.useColor c = k := by
        unfold tilePaletteKey.useColor
        rw [if_pos hkc]
      have := foldl_useColor_size_le t (k.useColor c)
      rw [List.foldl_cons]
      rw [hsame] at this ⊢
      simp only [List.length_cons]
      omega

theorem keyOf_size_le (l : List Nat) : (keyOf l).size ≤ l.length := by
  have := foldl_useColor_size_le l emptyKey
  simpa [keyOf, emptyKey] using this

theorem keyOf_size_eq_iff (l : List Nat) (hl : ∀ c ∈ l, c < 256) :
    (keyOf l).size = l.length ↔ l.Nodup := by
  constructor
  · intro h
    by_contra hnd
    have := foldl_useColor_size_lt l hl emptyKey wellFormed_empty (fun hh => hnd hh.1)
    rw [keyOf] at h
    have hz : emptyKey.size = 0 := rfl
    omega
  · intro hnd
    have := foldl_useColor_size_nodup l hl hnd emptyKey wellFormed_empty
      (fun c _ => hasColor_empty c)
    rw [keyOf, this]
    simp [emptyKey]

/- ### `buffer`, `without` and `joinedBuffer` -/

theorem foldl_append_filter (p : Nat → Bool) (l : List Nat) :
    ∀ acc : List Nat,
      l.foldl (fun r i => if p i then r ++ [i] else r) acc = acc ++ l.filter p := by
  induction l with
  | nil => intro acc; simp
  | cons a t ih =>
    intro acc
    rw [List.foldl_cons, List.filter_cons]
    rcases h : p a with _ | _ <;> simp [ih]

theorem buffer_eq_filter (key : tilePaletteKey) :
    key.buffer = (List.range 256).filter (fun c => key.hasColor c) := by
  unfold tilePaletteKey.buffer
  rw [foldl_append_filter]
  simp

theorem mem_buffer_iff (key : tilePaletteKey) (hwf : wellFormedKey key) (c : Nat) :
    c ∈ key.buffer ↔ key.hasColor c = true := by
  rw [buffer_eq_filter]
  constructor
  · intro hmem
    exact (List.mem_filter.mp hmem).2
  · intro h
    refine List.mem_filter.mpr ⟨List.mem_range.mpr ?_, h⟩
    by_contra h256
    rw [hasColor_of_ge key hwf.1 (by omega)] at h
    cases h

theorem buffer_nodup (key : tilePaletteKey) : key.buffer.Nodup := by
  rw [buffer_eq_filter]
  exact (List.nodup_range 256).filter _

theorem buffer_sorted (key : tilePaletteKey) : key.buffer.Pairwise (· < ·) := by
  rw [buffer_eq_filter]
  exact (List.pairwise_lt_range 256).sublist (List.filter_sublist _)

theorem buffer_lt_256 (key : tilePaletteKey) : ∀ c ∈ key.buffer, c < 256 := by
  intro c hc
  rw [buffer_eq_filter] at hc
  exact List.mem_range.mp (List.mem_of_mem_filter hc)

theorem buffer_length (key : tilePaletteKey) (h : goodKey key) :
    key.buffer.length = key.size := by
  rw [buffer_eq_filter, ← List.countP_eq_length_filter]
  exact h.2.symm

theorem foldl_ite_useColor_filter (p : Nat → Bool) (l : List Nat) :
    ∀ k : tilePaletteKey,
      l.foldl (fun r i => if p i then r.useColor i else r) k
        = (l.filter p).foldl tilePaletteKey.useColor k := by
  induction l with
  | nil => intro k; simp
  | cons a t ih =>
    intro k
    rw [List.foldl_cons, List.filter_cons]
    rcases h : p a with _ | _ <;> simp [ih]

theorem without_eq_keyOf (key other : tilePaletteKey) :
    key.without other
      = keyOf ((List.range 256).filter (fun i => key.hasColor i && !(other.hasColor i))) := by
  unfold tilePaletteKey.without keyOf
  rw [foldl_ite_useColor_filter]

theorem goodKey_without (key other : tilePaletteKey) : goodKey (key.without other) := by
  rw [without_eq_keyOf]
  exact goodKey_keyOf _ (fun c hcmem => List.mem_range.mp (List.mem_of_mem_filter hcmem))

theorem hasColor_without (key other : tilePaletteKey) (hwf : wellFormedKey key) (d : Nat) :
    (key.without other).hasColor d = (key.hasColor d && !(other.hasColor d)) := by
  rw [without_eq_keyOf,
    hasColor_keyOf _ (fun c hcmem => List.mem_range.mp (List.mem_of_mem_filter hcmem)) d]
  rcases Nat.lt_or_ge d 256 with h | h
  · rcases hval : (key.hasColor d && !(other.hasColor d)) with _ | _
    · have hnot : d ∉ (List.range 256).filter
          (fun i => key.hasColor i && !(other.hasColor i)) := by
        intro hmem
        have := (List.mem_filter.mp hmem).2
        rw [hval] at this
        cases this
      simp [hnot]
    · have hmem : d ∈ (List.range 256).filter
          (fun i => key.hasColor i && !(other.hasColor i)) :=
        List.mem_filter.mpr ⟨List.mem_range.mpr h, hval⟩
      simp [hmem]
  · rw [hasColor_of_ge key hwf.1 h]
    have hnot : d ∉ (List.range 256).filter
        (fun i => key.hasColor i && !(other.hasColor i)) := by
      intro hmem
      exact absurd (List.mem_range.mp (List.mem_of_mem_filter hmem)) (by omega)
    simp [hnot]

theorem size_without (key other : tilePaletteKey) :
    (key.without other).size
      = (List.range 256).countP (fun c => key.hasColor c && !(other.hasColor c)) := by
  rw [without_eq_keyOf]
  have hlt : ∀ c ∈ (List.range 256).filter (fun i => key.hasColor i && !(other.hasColor i)),
      c < 256 := fun c hcmem => List.mem_range.mp (List.mem_of_mem_filter hcmem)
  have hnd : ((List.range 256).filter
      (fun i => key.hasColor i && !(other.hasColor i))).Nodup :=
    (List.nodup_range 256).filter _
  rw [(keyOf_size_eq_iff _ hlt).mpr hnd, ← List.countP_eq_length_filter]

theorem countP_and_split (l : List Nat) (p q : Nat → Bool) :
    l.countP p = l.countP (fun c => p c && q c) + l.countP (fun c => p c && !(q c)) := by
  induction l with
  | nil => simp
  | cons a t ih =>
    rw [List.countP_cons, List.countP_cons, List.countP_cons, ih]
    rcases hp : p a with _ | _ <;> rcases hq : q a with _ | _ <;> simp [hp, hq] <;> omega

theorem joinedBuffer_eq (key : tilePaletteKey) (source : List Nat) :
    key.joinedBuffer source
      = source ++ (List.range 256).filter
          (fun c => key.hasColor c && !((keyOf source).hasColor c)) := by
  unfold tilePaletteKey.joinedBuffer
  dsimp only
  rw [foldl_append_filter]
  simp

/-- When `source` is a duplicate-free sub-collection of the key's colors,
`joinedBuffer` is a permutation of the key's color set. -/
theorem joinedBuffer_spec (key : tilePaletteKey) (source : List Nat)
    (hgood : goodKey key) (hs256 : ∀ c ∈ source, c < 256)
    (hnd : source.Nodup) (hsub : ∀ c ∈ source, key.hasColor c = true) :
    (key.joinedBuffer source).length = key.size ∧
    (key.joinedBuffer source).Nodup ∧
    (∀ c, c ∈ key.joinedBuffer source ↔ key.hasColor c = true) := by
  rw [joinedBuffer_eq]
  have hmemsrc : ∀ x, (keyOf source).hasColor x = true ↔ x ∈ source := by
    intro x
    rw [hasColor_keyOf source hs256 x]
    exact decide_eq_true_iff
  refine ⟨?_, ?_, ?_⟩
  · rw [List.length_append, ← List.countP_eq_length_filter]
    have h1 : source.length = (keyOf source).size :=
      ((keyOf_size_eq_iff source hs256).mpr hnd).symm
    have h2 : (keyOf source).size
        = (List.range 256).countP (fun c => (keyOf source).hasColor c) :=
      (goodKey_keyOf source hs256).2
    have h3 := countP_and_split (List.range 256) (fun c => key.hasColor c)
      (fun c => (keyOf source).hasColor c)
    have h4 : (List.range 256).countP (fun c => key.hasColor c && (keyOf source).hasColor c)
        = (List.range 256).countP (fun c => (keyOf source).hasColor c) := by
      apply List.countP_congr
      intro x hx
      constructor
      · intro hx2
        exact (Bool.and_eq_true _ _ |>.mp hx2).2
      · intro hx2
        rw [Bool.and_eq_true]
        exact ⟨hsub x ((hmemsrc x).mp hx2), hx2⟩
    have h5 : key.size = (List.range 256).countP (fun c => key.hasColor c) := hgood.2
    omega
  · rw [List.nodup_append]
    refine ⟨hnd, (List.nodup_range 256).filter _, ?_⟩
    intro x hx1 hx2
    have := (List.mem_filter.mp hx2).2
    rw [Bool.and_eq_true] at this
    have hnot := this.2
    rw [Bool.not_eq_true' ] at hnot
    rw [← hmemsrc x] at hx1
    rw [hx1] at hnot
    cases hnot
  · intro c
    rw [List.mem_append, List.mem_filter]
    constructor
    · rintro (hc | hc)
      · exact hsub c hc
      · exact (Bool.and_eq_true _ _ |>.mp hc.2).1
    · intro hc
      rcases Decidable.em (c ∈ source) with hs | hs
      · exact Or.inl hs
      · refine Or.inr ⟨List.mem_range.mpr ?_, ?_⟩
        · by_contra h256
          rw [hasColor_of_ge key hgood.1.1 (by omega)] at hc
          cases hc
        · rw [Bool.and_eq_true]
          refine ⟨hc, ?_⟩
          rw [Bool.not_eq_true']
          rw [← Bool.not_eq_true]
          intro hcon
          exact hs ((hmemsrc c).mp hcon)

/- ### The nested packing tree -/

/-- A packing tree node (`nestedEntry` in Go): a key and its nested children. -/
inductive nestedEntry where
  | mk (key : tilePaletteKey) (nested : List nestedEntry)

def nestedEntry.key : nestedEntry → tilePaletteKey
  | .mk k _ => k

def nestedEntry.nested : nestedEntry → List nestedEntry
  | .mk _ n => n

/-- `byteSize`: own size plus the nested byte sizes.  The fuel bounds the tree
depth; every tree built below has depth bounded by its root's size, and all
callers pass ample fuel. -/
def byteSizeF : Nat → nestedEntry → Nat
  | 0, e => e.key.size
  | fuel + 1, e => e.key.size + (e.nested.map (byteSizeF fuel)).sum

/-- The loop of `extractBuffer` over the nested children: each child is
extracted at the running relative offset, which advances by the child's size. -/
def extractChildrenWith (f : nestedEntry → Nat → List Nat × List (tilePaletteKey × Nat)) :
    List nestedEntry → Nat → Nat → List Nat × List (tilePaletteKey × Nat)
  | [], _, _ => ([], [])
  | c :: rest, startOffset, relativeOffset =>
    let pc := f c (startOffset + relativeOffset)
    let pr := extractChildrenWith f rest startOffset (relativeOffset + c.key.size)
    (pc.1 ++ pr.1, pc.2 ++ pr.2)

/-- `extractBuffer`: the node's bytes together with the `marker` calls
(key, absolute offset); the parent is marked first, then the children in order. -/
def extractBufferF : Nat → nestedEntry → Nat → List Nat × List (tilePaletteKey × Nat)
  | 0, e, startOffset => (e.key.joinedBuffer [], [(e.key, startOffset)])
  | fuel + 1, e, startOffset =>
    let pc := extractChildrenWith (extractBufferF fuel) e.nested startOffset 0
    (e.key.joinedBuffer pc.1, (e.key, startOffset) :: pc.2)

/-- The max-byteSize selection of `populateRemaining`: a strictly larger byte
size replaces the current best (`nestedSize > maxByteSize`, starting from 0). -/
def pickMax (bs : nestedEntry → Nat) :
    Option nestedEntry → List nestedEntry → Option nestedEntry
  | best, [] => best
  | best, e :: rest =>
    let maxByteSize := match best with
      | none => 0
      | some b => bs b
    pickMax bs (if bs e > maxByteSize then some e else best) rest

/-- `populateRemaining`: try candidate sizes descending from `keySize` down to 3;
at the first size class with matches, return the populated entry of maximal
byte size. -/
def populateRemaining (mkF : tilePaletteKey → nestedEntry) (bs : nestedEntry → Nat)
    (pool : List tilePaletteKey) (remainingKey : tilePaletteKey) : Nat → Option nestedEntry
  | 0 => none
  | 1 => none
  | 2 => none
  | keySize + 3 =>
    let cands := pool.filter
      (fun k => k.size == keySize + 3 && remainingKey.contains k)
    match pickMax bs none (cands.map mkF) with
    | some e => some e
    | none => populateRemaining mkF bs pool remainingKey (keySize + 2)

/-- The loop of `populate`: while the remaining key has size above 2 and a
nested entry is found, attach it and subtract its key. -/
def populateLoop (mkF : tilePaletteKey → nestedEntry) (bs : nestedEntry → Nat)
    (pool : List tilePaletteKey) : Nat → tilePaletteKey → Nat → List nestedEntry
  | 0, _, _ => []
  | loopFuel + 1, remainingKey, keySearchSize =>
    if remainingKey.size > 2 then
      match populateRemaining mkF bs pool remainingKey keySearchSize with
      | some e =>
        e :: populateLoop mkF bs pool loopFuel (remainingKey.without e.key)
          ((remainingKey.without e.key).size)
      | none => []
    else []

/-- `populate`: build the nested tree for a key over the candidate pool.
Child keys are strictly smaller than their parents, so fuel `PixelPerTile`
is ample for every tree arising in `Generate`. -/
def mkNested : Nat → List tilePaletteKey → tilePaletteKey → nestedEntry
  | 0, _, key => .mk key []
  | fuel + 1, pool, key =>
    .mk key (populateLoop (mkNested fuel pool) (byteSizeF fuel) pool
      key.size key (key.size - 1))

theorem mkNested_key (fuel : Nat) (pool : List tilePaletteKey) (key : tilePaletteKey) :
    (mkNested fuel pool key).key = key := by
  cases fuel <;> rfl

/- ### The `Generate` pipeline -/

/-- The produced lookup: the flat buffer plus the starts map, embedded as an
association list where the most recent binding wins. -/
structure PaletteLookup where
  buffer : List Nat
  starts : List (tilePaletteKey × Nat)
deriving DecidableEq

/-- Go map read `lookup.starts[key]`. -/
def startsLookup : List (tilePaletteKey × Nat) → tilePaletteKey → Option Nat
  | [], _ => none
  | (k, v) :: rest, key => if k = key then some v else startsLookup rest key

/-- The window `buffer[start : start+len]`. -/
def window (buffer : List Nat) (start len : Nat) : List Nat :=
  (buffer.drop start).take len

/-- The induced key of a window (`tempKey` in the scavenging loop). -/
def windowKey (buffer : List Nat) (start len : Nat) : tilePaletteKey :=
  keyOf (window buffer start len)

/-- The scavenging scan:
`for start := 0; start < (len(lookup.buffer)-key.size) && !wasRemoved; start++`,
returning the first start whose window's induced key contains `key`.
Note the exclusive upper bound `len(buffer) - key.size`. -/
def scavengeOne (buffer : List Nat) (key : tilePaletteKey) : Option Nat :=
  (List.range (buffer.length - key.size)).find?
    (fun start => (windowKey buffer start key.size).contains key)

/-- State of the `Generate` loop: buffer and starts built so far plus the
remainder pool (a list standing for Go's nondeterministically ordered set). -/
structure GenState where
  buffer : List Nat
  starts : List (tilePaletteKey × Nat)
  remainder : List tilePaletteKey

/-- The early-removal (prefix scavenging) block of one size class. -/
def scavengePass (size : Nat) (st : GenState) : GenState :=
  { buffer := st.buffer
    starts := ((st.remainder.filter
        (fun k => k.size == size && (scavengeOne st.buffer k).isSome)).map
        (fun k => (k, (scavengeOne st.buffer k).getD 0))) ++ st.starts
    remainder := st.remainder.filter
      (fun k => !(k.size == size && (scavengeOne st.buffer k).isSome)) }

/-- Packing one key of the current size class: populate the nested tree from
the live remainder pool, extract its bytes at the end of the buffer, record
every marked key and drop the marked keys from the pool. -/
def nestedStep (st : GenState) (key : tilePaletteKey) : GenState :=
  let root := mkNested PixelPerTile st.remainder key
  let pr := extractBufferF PixelPerTile root st.buffer.length
  { buffer := st.buffer ++ pr.1
    starts := pr.2 ++ st.starts
    remainder := st.remainder.filter (fun k => !(decide (k ∈ pr.2.map Prod.fst))) }

/-- One size class: scavenge, collect `keysInSize`, pack each one. -/
def sizePass (size : Nat) (st : GenState) : GenState :=
  let st1 := scavengePass size st
  (st1.remainder.filter (fun k => k.size == size)).foldl nestedStep st1

/-- `for size := PixelPerTile; size > 2; size--`. -/
def generateLoop : Nat → GenState → GenState
  | 0, st => st
  | 1, st => st
  | 2, st => st
  | size + 3, st => generateLoop (size + 2) (sizePass (size + 3) st)

/-- The final naive emission of whatever remains unplaced. -/
def finalize (st : GenState) : PaletteLookup :=
  st.remainder.foldl
    (fun lk key => ⟨lk.buffer ++ key.buffer, (key, lk.buffer.length) :: lk.starts⟩)
    ⟨st.buffer, st.starts⟩

/-- `Generate` over an explicit list of registered keys. -/
def generateKeys (keys : List tilePaletteKey) : PaletteLookup :=
  finalize (generateLoop PixelPerTile ⟨[], [], keys⟩)

/- ### Registration -/

/-- The generator accumulator: `keyUses` embedded as an association list. -/
structure PaletteLookupGenerator where
  keyUses : List (tilePaletteKey × Nat)

/-- `gen.keyUses[key]++` (inserting 1 on first sight). -/
def bumpUse : List (tilePaletteKey × Nat) → tilePaletteKey → List (tilePaletteKey × Nat)
  | [], key => [(key, 1)]
  | (k, n) :: rest, key =>
    if k = key then (k, n + 1) :: rest else (k, n) :: bumpUse rest key

/-- `Add`: register a tile delta when its key has more than two colors. -/
def PaletteLookupGenerator.Add (gen : PaletteLookupGenerator) (delta : List Nat) :
    PaletteLookupGenerator :=
  let key := keyOf delta
  if key.size > 2 then ⟨bumpUse gen.keyUses key⟩ else gen

/-- `Generate`: build the lookup from the set of registered keys. -/
def PaletteLookupGenerator.Generate (gen : PaletteLookupGenerator) : PaletteLookup :=
  generateKeys (gen.keyUses.map Prod.fst)

/- ### `Lookup` -/

/-- Go's `bits.Len`.  The auxiliary fuel equals the argument, which always
suffices because the argument halves at each step. -/
def bitLenAux : Nat → Nat → Nat
  | 0, _ => 0
  | fuel + 1, m => if m = 0 then 0 else bitLenAux fuel (m / 2) + 1

def bitLen (n : Nat) : Nat := bitLenAux n n

/-- The inverse palette array `mapped`: later writes shadow earlier ones,
unset entries read 0; `byte(mappedIndex)` truncates to 8 bits. -/
def mappedGo : List Nat → Nat → (Nat → Nat) → (Nat → Nat)
  | [], _, f => f
  | b :: rest, i, f => mappedGo rest (i + 1) (fun x => if x = b then i % 256 else f x)

def mappedArr (pal : List Nat) : Nat → Nat := mappedGo pal 0 (fun _ => 0)

/-- The mask loop over tile pixels from index `PixelPerTile-1` down to 0:
`mask <<= bitSize; mask |= uint64(mapped[tile[tileIndex]])` on `uint64`. -/
def buildMask (bitSize : Nat) (mapped : Nat → Nat) (tile : List Nat) : Nat :=
  tile.reverse.foldl (fun mask b => ((mask <<< bitSize) % 2 ^ 64) ||| mapped b) 0

/-- `Lookup`: find the tile's key; on a hit take the buffer window (Go returns
the map value), on a miss Go's comma-ok read leaves `index` at the zero value 0
and the inline palette `key.buffer()` is used; then build the pixel mask. -/
def PaletteLookup.Lookup (lookup : PaletteLookup) (tile : List Nat) :
    Nat × List Nat × Nat :=
  let key := keyOf tile
  let found := startsLookup lookup.starts key
  let pal := match found with
    | some index => window lookup.buffer index key.size
    | none => key.buffer
  let bitSize := bitLen (key.size - 1)
  (found.getD 0, pal, buildMask bitSize (mappedArr pal) tile)

/- ### `bits.Len` -/

theorem bitLenAux_lt (fuel : Nat) : ∀ m, m ≤ fuel → m < 2 ^ bitLenAux fuel m := by
  induction fuel with
  | zero =>
    intro m hm
    have : m = 0 := by omega
    subst this
    simp [bitLenAux]
  | succ fuel ih =>
    intro m hm
    rcases eq_or_ne m 0 with rfl | hne
    · simp [bitLenAux]
    · unfold bitLenAux
      rw [if_neg hne]
      have h2 := ih (m / 2) (by omega)
      rw [pow_succ]
      omega

theorem bitLen_lt (m : Nat) : m < 2 ^ bitLen m := bitLenAux_lt m m le_rfl

theorem bitLenAux_le (fuel : Nat) : ∀ m b, m ≤ fuel → m < 2 ^ b → bitLenAux fuel m ≤ b := by
  induction fuel with
  | zero =>
    intro m b _ _
    simp [bitLenAux]
  | succ fuel ih =>
    intro m b hm hb
    rcases eq_or_ne m 0 with rfl | hne
    · simp [bitLenAux]
    · unfold bitLenAux
      rw [if_neg hne]
      have hb1 : 1 ≤ b := by
        by_contra hcon
        have : b = 0 := by omega
        subst this
        simp at hb
        omega
      have hsplit : 2 ^ b = 2 * 2 ^ (b - 1) := by
        rw [← pow_succ']
        congr 1
        omega
      have hdiv : m / 2 < 2 ^ (b - 1) := by omega
      have := ih (m / 2) (b - 1) (by omega) hdiv
      omega

theorem bitLen_le (m b : Nat) (hb : m < 2 ^ b) : bitLen m ≤ b :=
  bitLenAux_le m m b le_rfl hb

/- ### The inverse palette map -/

theorem mappedGo_not_mem (l : List Nat) (c : Nat) (hc : c ∉ l) :
    ∀ i f, mappedGo l i f c = f c := by
  induction l with
  | nil => intro i f; rfl
  | cons b rest ih =>
    intro i f
    have hcb : c ≠ b := fun h => hc (h ▸ List.mem_cons_self b rest)
    have hcr : c ∉ rest := fun h => hc (List.mem_cons_of_mem b h)
    rw [show mappedGo (b :: rest) i f
        = mappedGo rest (i + 1) (fun x => if x = b then i % 256 else f x) from rfl,
      ih hcr]
    simp [hcb]

theorem mappedGo_spec (l : List Nat) (hnd : l.Nodup) (c : Nat) (hc : c ∈ l) :
    ∀ i f, i + l.length ≤ 256 →
      ∃ j, j < l.length ∧ mappedGo l i f c = i + j ∧ l.getD j 0 = c := by
  induction l with
  | nil => cases hc
  | cons b rest ih =>
    intro i f hle
    rcases List.mem_cons.mp hc with rfl | hcr
    · have hnr : c ∉ rest := (List.nodup_cons.mp hnd).1
      refine ⟨0, by simp, ?_, by simp⟩
      rw [show mappedGo (c :: rest) i f
          = mappedGo rest (i + 1) (fun x => if x = c then i % 256 else f x) from rfl,
        mappedGo_not_mem rest c hnr]
      have hi : i % 256 = i := Nat.mod_eq_of_lt (by simp at hle; omega)
      simp [hi]
    · obtain ⟨j, hj, heq, hget⟩ :=
        ih (List.nodup_cons.mp hnd).2 hcr (i + 1)
          (fun x => if x = b then i % 256 else f x) (by simp at hle ⊢; omega)
      refine ⟨j + 1, by simp; omega, ?_, by simpa using hget⟩
      rw [show mappedGo (b :: rest) i f
          = mappedGo rest (i + 1) (fun x => if x = b then i % 256 else f x) from rfl,
        heq]
      omega

/- ### The pixel mask -/

theorem buildMask_cons (b : Nat) (f : Nat → Nat) (v : Nat) (rest : List Nat) :
    buildMask b f (v :: rest)
      = (((buildMask b f rest) <<< b) % 2 ^ 64) ||| f v := by
  unfold buildMask
  rw [List.reverse_cons, List.foldl_append]
  rfl

theorem buildMask_spec (b : Nat) (f : Nat → Nat) (hf : ∀ v, f v < 2 ^ b) :
    ∀ tile : List Nat, tile.length * b ≤ 64 →
      buildMask b f tile < 2 ^ (tile.length * b) ∧
      (∀ i, i < tile.length →
        (buildMask b f tile >>> (i * b)) &&& (2 ^ b - 1) = f (tile.getD i 0)) := by
  intro tile
  induction tile with
  | nil =>
    intro _
    constructor
    · show buildMask b f [] < 2 ^ (0 * b)
      rw [show buildMask b f [] = 0 from rfl]
      simp
    · intro i hi
      simp at hi
  | cons v rest ih =>
    intro hlen
    have hlen' : rest.length * b ≤ 64 := by
      rw [List.length_cons, Nat.succ_mul] at hlen
      omega
    obtain ⟨hbound, hget⟩ := ih hlen'
    have hpow : 2 ^ (rest.length * b) * 2 ^ b = 2 ^ ((rest.length + 1) * b) := by
      rw [← pow_add, Nat.succ_mul]
    have hstep : buildMask b f (v :: rest) = (buildMask b f rest) * 2 ^ b + f v := by
      rw [buildMask_cons]
      have h1 : (buildMask b f rest) <<< b = (buildMask b f rest) * 2 ^ b :=
        Nat.shiftLeft_eq _ _
      have h64 : 2 ^ ((rest.length + 1) * b) ≤ 2 ^ 64 := by
        apply Nat.pow_le_pow_right (by omega)
        rw [List.length_cons] at hlen
        exact hlen
      have h2 : (buildMask b f rest) * 2 ^ b < 2 ^ 64 := by
        calc (buildMask b f rest) * 2 ^ b
            < 2 ^ (rest.length * b) * 2 ^ b :=
              (Nat.mul_lt_mul_right (Nat.pos_pow_of_pos b (by omega))).mpr hbound
          _ = 2 ^ ((rest.length + 1) * b) := hpow
          _ ≤ 2 ^ 64 := h64
      rw [h1, Nat.mod_eq_of_lt h2]
      have hor := Nat.mul_add_lt_is_or (hf v) (buildMask b f rest)
      rw [Nat.mul_comm (2 ^ b) (buildMask b f rest)] at hor
      exact hor.symm
    constructor
    · rw [hstep, List.length_cons]
      have hv := hf v
      have hmul : (buildMask b f rest + 1) * 2 ^ b ≤ 2 ^ (rest.length * b) * 2 ^ b :=
        Nat.mul_le_mul_right _ hbound
      rw [hpow] at hmul
      rw [Nat.add_mul, Nat.one_mul] at hmul
      omega
    · intro i hi
      rcases i with _ | i
      · rw [hstep]
        simp only [Nat.zero_mul, Nat.shiftRight_zero, List.getD_cons_zero]
        rw [Nat.and_pow_two_sub_one_eq_mod, Nat.mul_comm, Nat.mul_add_mod]
        exact Nat.mod_eq_of_lt (hf v)
      · rw [hstep, show (i + 1) * b = b + i * b by ring, Nat.shiftRight_add]
        have hdiv : (buildMask b f rest * 2 ^ b + f v) >>> b = buildMask b f rest := by
          rw [Nat.shiftRight_eq_div_pow, Nat.add_comm,
            Nat.add_mul_div_right _ _ (Nat.pos_pow_of_pos b (by omega)),
            Nat.div_eq_of_lt (hf v)]
          omega
        rw [hdiv, hget i (by simpa using hi), List.getD_cons_succ]

/-- The core mask round-trip: reading `bitSize`-bit fields out of the mask and
indexing the palette reproduces the tile, whenever the palette is
duplicate-free, covers the tile, and everything fits into 64 bits. -/
theorem lookup_mask_reconstruct (pal tile : List Nat) (bitSize : Nat)
    (hnd : pal.Nodup) (hmem : ∀ c ∈ tile, c ∈ pal)
    (hpal : pal.length ≤ 2 ^ bitSize) (hpal256 : pal.length ≤ 256)
    (hbits : tile.length * bitSize ≤ 64) :
    ∀ i, i < tile.length →
      pal.getD ((buildMask bitSize (mappedArr pal) tile >>> (i * bitSize))
        &&& ((1 <<< bitSize) - 1)) 0 = tile.getD i 0 := by
  have hf : ∀ v, mappedArr pal v < 2 ^ bitSize := by
    intro v
    rcases Decidable.em (v ∈ pal) with hv | hv
    · obtain ⟨j, hj, heq, _⟩ := mappedGo_spec pal hnd v hv 0 (fun _ => 0) (by omega)
      rw [mappedArr, heq]
      omega
    · rw [mappedArr, mappedGo_not_mem pal v hv]
      exact Nat.pos_pow_of_pos bitSize (by omega)
  intro i hi
  have h1 : (1 <<< bitSize) - 1 = 2 ^ bitSize - 1 := by
    rw [Nat.shiftLeft_eq, Nat.one_mul]
  rw [h1, (buildMask_spec bitSize (mappedArr pal) hf tile hbits).2 i hi]
  have hmem' : tile.getD i 0 ∈ tile := by
    rw [List.getD_eq_getElem?_getD, List.getElem?_eq_getElem hi]
    exact List.getElem_mem hi
  obtain ⟨j, hj, heq, hget⟩ :=
    mappedGo_spec pal hnd _ (hmem _ hmem') 0 (fun _ => 0) (by omega)
  rw [mappedArr, heq]
  simpa using hget

/- ### `startsLookup` and windows -/

theorem startsLookup_mem {starts : List (tilePaletteKey × Nat)} {key : tilePaletteKey}
    {v : Nat} (h : startsLookup starts key = some v) : (key, v) ∈ starts := by
  induction starts with
  | nil => cases h
  | cons p rest ih =>
    obtain ⟨k, w⟩ := p
    unfold startsLookup at h
    split at h
    · next heq =>
      subst heq
      cases h
      exact List.mem_cons_self _ _
    · exact List.mem_cons_of_mem _ (ih h)

theorem startsLookup_isSome {starts : List (tilePaletteKey × Nat)} {key : tilePaletteKey}
    (h : ∃ v, (key, v) ∈ starts) : ∃ v, startsLookup starts key = some v := by
  induction starts with
  | nil =>
    obtain ⟨v, hv⟩ := h
    cases hv
  | cons p rest ih =>
    obtain ⟨k, w⟩ := p
    rcases eq_or_ne k key with rfl | hne
    · exact ⟨w, by simp [startsLookup]⟩
    · obtain ⟨v, hv⟩ := h
      rcases List.mem_cons.mp hv with heq | hmem
      · cases heq
        exact absurd rfl hne
      · obtain ⟨v', hv'⟩ := ih ⟨v, hmem⟩
        exact ⟨v', by simpa [startsLookup, hne] using hv'⟩

theorem window_length {buffer : List Nat} {start len : Nat}
    (h : start + len ≤ buffer.length) : (window buffer start len).length = len := by
  simp [window]
  omega

theorem window_append_outer {buf ext : List Nat} {start len : Nat}
    (h : start + len ≤ buf.length) :
    window (buf ++ ext) start len = window buf start len := by
  unfold window
  rw [List.drop_append_of_le_length (by omega),
    List.take_append_of_le_length (by simp; omega)]

theorem window_append_inner {buf ext : List Nat} {start len : Nat} :
    window (buf ++ ext) (buf.length + start) len = window ext start len := by
  unfold window
  rw [List.drop_append]

theorem window_prefix {a b : List Nat} {start len : Nat}
    (h : start + len ≤ a.length) :
    window (a ++ b) start len = window a start len :=
  window_append_outer h

/- ### Well-formed packing trees -/

theorem hasColor_lt_256 (key : tilePaletteKey) (hwf : key.usedColors.length = 4)
    {c : Nat} (h : key.hasColor c = true) : c < 256 := by
  by_contra hcon
  rw [hasColor_of_ge key hwf (by omega)] at h
  cases h

/-- Disjointness of two keys' color sets. -/
def keyDisjoint (a b : tilePaletteKey) : Prop :=
  ∀ c, a.hasColor c = true → b.hasColor c = false

/-- The trees produced by `populate`: every node key is good and the children
carry strictly smaller, pairwise disjoint sub-keys of their parent. -/
inductive WfTree : nestedEntry → Prop where
  | mk (key : tilePaletteKey) (nested : List nestedEntry) :
      goodKey key →
      (∀ e ∈ nested, WfTree e) →
      (∀ e ∈ nested, goodKey e.key ∧ keySub e.key key ∧ e.key.size < key.size) →
      nested.Pairwise (fun a b => keyDisjoint a.key b.key) →
      WfTree (.mk key nested)

/-- What one marker entry guarantees, relative to the extracted bytes placed at
absolute offset `so`. -/
def markOk (bytes : List Nat) (so : Nat) (p : tilePaletteKey × Nat) : Prop :=
  so ≤ p.2 ∧ p.2 + p.1.size ≤ so + bytes.length ∧
  (window bytes (p.2 - so) p.1.size).Nodup ∧
  (∀ c, c ∈ window bytes (p.2 - so) p.1.size ↔ p.1.hasColor c = true)

/-- The full extraction contract for an extraction function applied to a node. -/
def extractOk (f : nestedEntry → Nat → List Nat × List (tilePaletteKey × Nat))
    (c : nestedEntry) : Prop :=
  ∀ so, (f c so).1.length = c.key.size ∧ (f c so).1.Nodup ∧
    (∀ x, x ∈ (f c so).1 ↔ c.key.hasColor x = true) ∧
    (∀ p ∈ (f c so).2, markOk (f c so).1 so p) ∧
    (∀ p ∈ (f c so).2, p.1 = c.key ∨ p.1.size < c.key.size) ∧
    (c.key, so) ∈ (f c so).2

theorem extractChildren_spec
    (f : nestedEntry → Nat → List Nat × List (tilePaletteKey × Nat)) :
    ∀ l : List nestedEntry, (∀ c ∈ l, extractOk f c) →
      l.Pairwise (fun a b => keyDisjoint a.key b.key) →
      ∀ so ro,
      (extractChildrenWith f l so ro).1.length = (l.map (fun c => c.key.size)).sum ∧
      (extractChildrenWith f l so ro).1.Nodup ∧
      (∀ x, x ∈ (extractChildrenWith f l so ro).1 ↔ ∃ c ∈ l, c.key.hasColor x = true) ∧
      (∀ p ∈ (extractChildrenWith f l so ro).2,
        so + ro ≤ p.2 ∧
        p.2 + p.1.size ≤ so + ro + (extractChildrenWith f l so ro).1.length ∧
        (window (extractChildrenWith f l so ro).1 (p.2 - (so + ro)) p.1.size).Nodup ∧
        (∀ x, x ∈ window (extractChildrenWith f l so ro).1 (p.2 - (so + ro)) p.1.size
          ↔ p.1.hasColor x = true)) ∧
      (∀ p ∈ (extractChildrenWith f l so ro).2,
        ∃ c ∈ l, p.1 = c.key ∨ p.1.size < c.key.size) := by
  intro l
  induction l with
  | nil =>
    intro _ _ so ro
    refine ⟨rfl, List.nodup_nil, ?_, ?_, ?_⟩
    · intro x
      simp [extractChildrenWith]
    · intro p hp
      simp [extractChildrenWith] at hp
    · intro p hp
      simp [extractChildrenWith] at hp
  | cons c rest ih =>
    intro hok hdisj so ro
    have hokc := hok c (List.mem_cons_self _ _) (so + ro)
    obtain ⟨hlen_c, hnd_c, hmem_c, hmarks_c, hsize_c, _⟩ := hokc
    obtain ⟨hlen_r, hnd_r, hmem_r, hmarks_r, hsize_r⟩ :=
      ih (fun d hd => hok d (List.mem_cons_of_mem _ hd))
        (List.pairwise_cons.mp hdisj).2 so (ro + c.key.size)
    have hdisj_head := (List.pairwise_cons.mp hdisj).1
    have hstep : extractChildrenWith f (c :: rest) so ro
        = ((f c (so + ro)).1 ++ (extractChildrenWith f rest so (ro + c.key.size)).1,
           (f c (so + ro)).2 ++ (extractChildrenWith f rest so (ro + c.key.size)).2) := rfl
    rw [hstep]
    refine ⟨?_, ?_, ?_, ?_, ?_⟩
    · simp only [List.length_append, List.map_cons, List.sum_cons, hlen_c, hlen_r]
    · rw [List.nodup_append]
      refine ⟨hnd_c, hnd_r, ?_⟩
      intro x hx1 hx2
      have h1 : c.key.hasColor x = true := (hmem_c x).mp hx1
      obtain ⟨d, hd, h2⟩ := (hmem_r x).mp hx2
      have := hdisj_head d hd x h1
      rw [h2] at this
      cases this
    · intro x
      rw [List.mem_append, hmem_c x, hmem_r x]
      constructor
      · rintro (h | ⟨d, hd, h⟩)
        · exact ⟨c, List.mem_cons_self _ _, h⟩
        · exact ⟨d, List.mem_cons_of_mem _ hd, h⟩
      · rintro ⟨d, hd, h⟩
        rcases List.mem_cons.mp hd with rfl | hd'
        · exact Or.inl h
        · exact Or.inr ⟨d, hd', h⟩
    · intro p hp
      simp only [List.length_append]
      rcases List.mem_append.mp hp with hpc | hpr
      · obtain ⟨hso, hbound, hwnd, hwmem⟩ := hmarks_c p hpc
        have hfit : p.2 - (so + ro) + p.1.size ≤ (f c (so + ro)).1.length := by omega
        have hwin : window ((f c (so + ro)).1
              ++ (extractChildrenWith f rest so (ro + c.key.size)).1)
              (p.2 - (so + ro)) p.1.size
            = window (f c (so + ro)).1 (p.2 - (so + ro)) p.1.size :=
          window_prefix hfit
        rw [hwin]
        exact ⟨hso, by omega, hwnd, hwmem⟩
      · obtain ⟨hso, hbound, hwnd, hwmem⟩ := hmarks_r p hpr
        have hge : (f c (so + ro)).1.length ≤ p.2 - (so + ro) := by omega
        have hsplit : p.2 - (so + ro)
            = (f c (so + ro)).1.length + (p.2 - (so + (ro + c.key.size))) := by
          omega
        have hwin : window ((f c (so + ro)).1
              ++ (extractChildrenWith f rest so (ro + c.key.size)).1)
              (p.2 - (so + ro)) p.1.size
            = window (extractChildrenWith f rest so (ro + c.key.size)).1
              (p.2 - (so + (ro + c.key.size))) p.1.size := by
          rw [hsplit]
          exact window_append_inner
        rw [hwin]
        exact ⟨by omega, by omega, hwnd, hwmem⟩
    · intro p hp
      rcases List.mem_append.mp hp with hpc | hpr
      · exact ⟨c, List.mem_cons_self _ _, hsize_c p hpc⟩
      · obtain ⟨d, hd, h⟩ := hsize_r p hpr
        exact ⟨d, List.mem_cons_of_mem _ hd, h⟩

theorem extract_spec : ∀ (fuel : Nat) (e : nestedEntry), WfTree e →
    extractOk (extractBufferF fuel) e := by
  intro fuel
  induction fuel with
  | zero =>
    rintro ⟨key, nested⟩ hwf so
    cases hwf with
    | mk _ _ hgood _ _ _ =>
      have hjb := joinedBuffer_spec key [] hgood (by simp) List.nodup_nil (by simp)
      obtain ⟨hlen, hnd, hmem⟩ := hjb
      have hbytes : (extractBufferF 0 (.mk key nested) so).1 = key.joinedBuffer [] := rfl
      have hmarks : (extractBufferF 0 (.mk key nested) so).2 = [(key, so)] := rfl
      rw [show (nestedEntry.mk key nested).key = key from rfl] at *
      refine ⟨by rw [hbytes, hlen], by rw [hbytes]; exact hnd,
        by rw [hbytes]; exact hmem, ?_, ?_, ?_⟩
      · intro p hp
        rw [hmarks] at hp
        rcases List.mem_singleton.mp hp with rfl
        refine ⟨le_rfl, ?_, ?_, ?_⟩
        · simp only [Nat.sub_self]
          rw [hbytes, hlen]
        · have : window (extractBufferF 0 (.mk key nested) so).1 (so - so) key.size
              = (extractBufferF 0 (.mk key nested) so).1 := by
            rw [Nat.sub_self, window, List.drop_zero, hbytes, ← hlen, List.take_length]
          rw [this, hbytes]
          exact hnd
        · intro x
          have : window (extractBufferF 0 (.mk key nested) so).1 (so - so) key.size
              = (extractBufferF 0 (.mk key nested) so).1 := by
            rw [Nat.sub_self, window, List.drop_zero, hbytes, ← hlen, List.take_length]
          rw [this, hbytes]
          exact hmem x
      · intro p hp
        rw [hmarks] at hp
        rcases List.mem_singleton.mp hp with rfl
        exact Or.inl rfl
      · rw [hmarks]
        exact List.mem_singleton.mpr rfl
  | succ fuel ih =>
    rintro ⟨key, nested⟩ hwf so
    cases hwf with
    | mk _ _ hgood hwfc hchild hdisj =>
      obtain ⟨hclen, hcnd, hcmem, hcmarks, hcsize⟩ :=
        extractChildren_spec (extractBufferF fuel) nested
          (fun c hc => ih c (hwfc c hc)) hdisj so 0
      set nb := (extractChildrenWith (extractBufferF fuel) nested so 0).1 with hnb
      set nmarks := (extractChildrenWith (extractBufferF fuel) nested so 0).2 with hnmarks
      have hbytes : (extractBufferF (fuel + 1) (.mk key nested) so).1
          = key.joinedBuffer nb := rfl
      have hmarks : (extractBufferF (fuel + 1) (.mk key nested) so).2
          = (key, so) :: nmarks := rfl
      have hnb256 : ∀ x ∈ nb, x < 256 := by
        intro x hx
        obtain ⟨c, hc, h⟩ := (hcmem x).mp hx
        exact hasColor_lt_256 c.key (hchild c hc).1.1.1 h
      have hnbsub : ∀ x ∈ nb, key.hasColor x = true := by
        intro x hx
        obtain ⟨c, hc, h⟩ := (hcmem x).mp hx
        exact (hchild c hc).2.1 x h
      have hjb := joinedBuffer_spec key nb hgood hnb256 hcnd hnbsub
      obtain ⟨hlen, hnd, hmem⟩ := hjb
      have hpref : key.joinedBuffer nb
          = nb ++ (List.range 256).filter
            (fun c => key.hasColor c && !((keyOf nb).hasColor c)) := joinedBuffer_eq key nb
      have hnble : nb.length ≤ (key.joinedBuffer nb).length := by
        rw [hpref]
        simp
      rw [show (nestedEntry.mk key nested).key = key from rfl] at *
      refine ⟨by rw [hbytes, hlen], by rw [hbytes]; exact hnd,
        by rw [hbytes]; exact hmem, ?_, ?_, ?_⟩
      · intro p hp
        rw [hmarks] at hp
        rcases List.mem_cons.mp hp with rfl | hpn
        · refine ⟨le_rfl, ?_, ?_, ?_⟩
          · simp only
            rw [hbytes, hlen]
          · have : window (extractBufferF (fuel + 1) (.mk key nested) so).1 (so - so) key.size
                = (extractBufferF (fuel + 1) (.mk key nested) so).1 := by
              rw [Nat.sub_self, window, List.drop_zero, hbytes, ← hlen, List.take_length]
            rw [this, hbytes]
            exact hnd
          · intro x
            have : window (extractBufferF (fuel + 1) (.mk key nested) so).1 (so - so) key.size
                = (extractBufferF (fuel + 1) (.mk key nested) so).1 := by
              rw [Nat.sub_self, window, List.drop_zero, hbytes, ← hlen, List.take_length]
            rw [this, hbytes]
            exact hmem x
        · obtain ⟨hso, hbound, hwnd, hwmem⟩ := hcmarks p hpn
          rw [Nat.add_zero] at hso hbound
          have hfit : p.2 - so + p.1.size ≤ nb.length := by omega
          have hwin : window (extractBufferF (fuel + 1) (.mk key nested) so).1
                (p.2 - so) p.1.size
              = window nb (p.2 - so) p.1.size := by
            rw [hbytes, hpref]
            exact window_prefix hfit
          have hsub0 : p.2 - (so + 0) = p.2 - so := by omega
          rw [hsub0] at hwnd hwmem
          refine ⟨hso, ?_, by rw [hwin]; exact hwnd, ?_⟩
          · rw [hbytes]
            omega
          · intro x
            rw [hwin]
            exact hwmem x
      · intro p hp
        rw [hmarks] at hp
        rcases List.mem_cons.mp hp with rfl | hpn
        · exact Or.inl rfl
        · obtain ⟨c, hc, h⟩ := hcsize p hpn
          rcases h with heq | h
          · rw [heq]
            exact Or.inr (hchild c hc).2.2
          · exact Or.inr (lt_trans h (hchild c hc).2.2)
      · rw [hmarks]
        exact List.mem_cons_self _ _

/- ### Size arithmetic on keys -/

theorem keySub_size_le {A B : tilePaletteKey} (hA : goodKey A) (hB : goodKey B)
    (hsub : keySub A B) : A.size ≤ B.size := by
  rw [hA.2, hB.2]
  exact List.countP_mono_left (fun x _ h => hsub x h)

theorem size_without_sub {A B : tilePaletteKey} (hA : goodKey A) (hB : goodKey B)
    (hsub : keySub B A) : (A.without B).size = A.size - B.size := by
  rw [size_without]
  have hsplit := countP_and_split (List.range 256)
    (fun c => A.hasColor c) (fun c => B.hasColor c)
  have heq : (List.range 256).countP (fun c => A.hasColor c && B.hasColor c)
      = (List.range 256).countP (fun c => B.hasColor c) := by
    apply List.countP_congr
    intro x _
    constructor
    · intro h
      exact (Bool.and_eq_true _ _ |>.mp h).2
    · intro h
      rw [Bool.and_eq_true]
      exact ⟨hsub x h, h⟩
  have h1 : A.size = (List.range 256).countP (fun c => A.hasColor c) := hA.2
  have h2 : B.size = (List.range 256).countP (fun c => B.hasColor c) := hB.2
  omega

/- ### The populate search builds well-formed trees -/

theorem pickMax_mem (bs : nestedEntry → Nat) :
    ∀ (l : List nestedEntry) (best : Option nestedEntry) (e : nestedEntry),
      pickMax bs best l = some e → best = some e ∨ e ∈ l := by
  intro l
  induction l with
  | nil =>
    intro best e h
    exact Or.inl h
  | cons a rest ih =>
    intro best e h
    unfold pickMax at h
    rcases ih _ e h with hbest | hmem
    · split at hbest
      · cases hbest
        exact Or.inr (List.mem_cons_self _ _)
      · exact Or.inl hbest
    · exact Or.inr (List.mem_cons_of_mem _ hmem)

theorem populateRemaining_spec (mkF : tilePaletteKey → nestedEntry)
    (bs : nestedEntry → Nat) (pool : List tilePaletteKey)
    (remainingKey : tilePaletteKey) :
    ∀ keySize e, populateRemaining mkF bs pool remainingKey keySize = some e →
      ∃ k ∈ pool, e = mkF k ∧ k.size ≤ keySize ∧ 3 ≤ k.size ∧
        remainingKey.contains k = true := by
  intro keySize
  induction keySize using Nat.strong_induction_on with
  | _ keySize ih =>
    rcases keySize with _ | _ | _ | ks
    · intro e h
      cases h
    · intro e h
      cases h
    · intro e h
      cases h
    · intro e h
      unfold populateRemaining at h
      dsimp only at h
      rcases hpick : pickMax bs none
          ((pool.filter (fun k => k.size == ks + 3 && remainingKey.contains k)).map mkF)
        with _ | e'
      · rw [hpick] at h
        obtain ⟨k, hk, he, h3, h4, h5⟩ := ih (ks + 2) (by omega) e h
        exact ⟨k, hk, he, by omega, h4, h5⟩
      · rw [hpick] at h
        cases h
        rcases pickMax_mem bs _ none e hpick with hbest | hmem
        · cases hbest
        · obtain ⟨k, hkmem, hkeq⟩ := List.mem_map.mp hmem
          have hkf := List.mem_filter.mp hkmem
          have hsz : k.size = ks + 3 := by
            have := (Bool.and_eq_true _ _ |>.mp hkf.2).1
            exact beq_iff_eq.mp this
          have hcont := (Bool.and_eq_true _ _ |>.mp hkf.2).2
          exact ⟨k, hkf.1, hkeq.symm, by omega, by omega, hcont⟩

theorem populateLoop_wf (mkF : tilePaletteKey → nestedEntry) (bs : nestedEntry → Nat)
    (pool : List tilePaletteKey) (hpool : ∀ k ∈ pool, goodKey k)
    (hmkkey : ∀ k, (mkF k).key = k)
    (hmkwf : ∀ k ∈ pool, WfTree (mkF k)) :
    ∀ (loopFuel : Nat) (remainingKey : tilePaletteKey) (keySearchSize N : Nat),
      goodKey remainingKey → remainingKey.size ≤ N → keySearchSize < N →
      (∀ e ∈ populateLoop mkF bs pool loopFuel remainingKey keySearchSize,
        WfTree e ∧ goodKey e.key ∧ keySub e.key remainingKey ∧
        3 ≤ e.key.size ∧ e.key.size < N) ∧
      (populateLoop mkF bs pool loopFuel remainingKey keySearchSize).Pairwise
        (fun a b => keyDisjoint a.key b.key) := by
  intro loopFuel
  induction loopFuel with
  | zero =>
    intro remainingKey keySearchSize N _ _ _
    constructor
    · intro e he
      cases he
    · exact List.Pairwise.nil
  | succ loopFuel ih =>
    intro remainingKey keySearchSize N hgood hsize hsearch
    unfold populateLoop
    split
    · rcases hpr : populateRemaining mkF bs pool remainingKey keySearchSize with _ | e
      · constructor
        · intro e he
          cases he
        · exact List.Pairwise.nil
      · obtain ⟨k, hkpool, hke, hkle, hk3, hkcont⟩ :=
          populateRemaining_spec mkF bs pool remainingKey keySearchSize e hpr
        have hekey : e.key = k := by
          rw [hke]
          exact hmkkey k
        have hkgood : goodKey k := hpool k hkpool
        have hksub : keySub k remainingKey :=
          (contains_iff hgood.1 hkgood.1).mp hkcont
        have hesub : keySub e.key remainingKey := by
          rw [hekey]
          exact hksub
        have hrem' : goodKey (remainingKey.without e.key) := goodKey_without _ _
        have hsz' : (remainingKey.without e.key).size = remainingKey.size - e.key.size := by
          apply size_without_sub hgood _ hesub
          rw [hekey]
          exact hkgood
        have hkszle : e.key.size ≤ remainingKey.size := by
          apply keySub_size_le _ hgood hesub
          rw [hekey]
          exact hkgood
        have hek3 : 3 ≤ e.key.size := by
          rw [hekey]
          exact hk3
        have hsub' : keySub (remainingKey.without e.key) remainingKey := by
          intro c hc
          rw [hasColor_without _ _ hgood.1 c] at hc
          exact (Bool.and_eq_true _ _ |>.mp hc).1
        have hekle : e.key.size ≤ keySearchSize := by
          rw [hekey]
          exact hkle
        obtain ⟨htail, htailpw⟩ := ih (remainingKey.without e.key)
          ((remainingKey.without e.key).size) N hrem' (by omega) (by omega)
        constructor
        · intro e' he'
          rcases List.mem_cons.mp he' with rfl | he'
          · refine ⟨?_, ?_, hesub, hek3, by omega⟩
            · rw [hke]
              exact hmkwf k hkpool
            · rw [hekey]
              exact hkgood
          · obtain ⟨hwf', hgood', hsub'', h3', hN'⟩ := htail e' he'
            exact ⟨hwf', hgood', fun c hc => hsub' c (hsub'' c hc), h3', hN'⟩
        · refine List.pairwise_cons.mpr ⟨?_, htailpw⟩
          intro e' he' c hc
          obtain ⟨_, _, hsub'', _, _⟩ := htail e' he'
          by_contra hcon
          rw [Bool.not_eq_false] at hcon
          have h1 := hsub'' c hcon
          rw [hasColor_without _ _ hgood.1 c, Bool.and_eq_true] at h1
          have := h1.2
          rw [hc] at this
          cases this
    · constructor
      · intro e he
        cases he
      · exact List.Pairwise.nil

theorem mkNested_wf : ∀ (fuel : Nat) (pool : List tilePaletteKey),
    (∀ k ∈ pool, goodKey k) → ∀ key : tilePaletteKey, goodKey key →
      WfTree (mkNested fuel pool key) := by
  intro fuel
  induction fuel with
  | zero =>
    intro pool _ key hkey
    exact WfTree.mk key [] hkey (by simp) (by simp) List.Pairwise.nil
  | succ fuel ih =>
    intro pool hpool key hkey
    rcases Nat.lt_or_ge 2 key.size with hgt | hle
    · obtain ⟨helem, hpw⟩ := populateLoop_wf (mkNested fuel pool) (byteSizeF fuel) pool
        hpool (fun k => mkNested_key fuel pool k) (fun k hk => ih pool hpool k (hpool k hk))
        key.size key (key.size - 1) key.size hkey le_rfl (by omega)
      exact WfTree.mk key _ hkey (fun e he => (helem e he).1)
        (fun e he => ⟨(helem e he).2.1, (helem e he).2.2.1, (helem e he).2.2.2.2⟩) hpw
    · have hempty : populateLoop (mkNested fuel pool) (byteSizeF fuel) pool
          key.size key (key.size - 1) = [] := by
        rcases hsz : key.size with _ | n
        · rfl
        · unfold populateLoop
          rw [if_neg (by omega)]
      rw [show mkNested (fuel + 1) pool key
          = .mk key (populateLoop (mkNested fuel pool) (byteSizeF fuel) pool
            key.size key (key.size - 1)) from rfl, hempty]
      exact WfTree.mk key [] hkey (by simp) (by simp) List.Pairwise.nil

/- ### The `Generate` invariant -/

/-- One `starts` binding is valid for the buffer: the window it denotes lies in
bounds, has no duplicate bytes, and holds exactly the key's colors. -/
def entryOk (buffer : List Nat) (p : tilePaletteKey × Nat) : Prop :=
  p.2 + p.1.size ≤ buffer.length ∧
  (window buffer p.2 p.1.size).Nodup ∧
  (∀ c, c ∈ window buffer p.2 p.1.size ↔ p.1.hasColor c = true)

theorem entryOk_append {buffer ext : List Nat} {p : tilePaletteKey × Nat}
    (h : entryOk buffer p) : entryOk (buffer ++ ext) p := by
  obtain ⟨hb, hnd, hmem⟩ := h
  have hwin : window (buffer ++ ext) p.2 p.1.size = window buffer p.2 p.1.size :=
    window_prefix hb
  refine ⟨?_, ?_, ?_⟩
  · rw [List.length_append]
    omega
  · rw [hwin]
    exact hnd
  · intro c
    rw [hwin]
    exact hmem c

/-- The `Generate` loop invariant. -/
def stInv (keys0 : List tilePaletteKey) (st : GenState) : Prop :=
  (∀ p ∈ st.starts, entryOk st.buffer p) ∧
  (∀ k ∈ keys0, k ∈ st.remainder ∨ ∃ s, (k, s) ∈ st.starts) ∧
  (∀ k ∈ st.remainder, goodKey k) ∧
  (∀ b ∈ st.buffer, b < 256)

/-- A successful scavenge yields a valid window: the window's induced key has at
least the target's colors and at most the window's length of them, which forces
exact, duplicate-free coverage. -/
theorem scavengeOne_spec {buffer : List Nat} {key : tilePaletteKey} {s : Nat}
    (hbuf : ∀ b ∈ buffer, b < 256) (hkey : goodKey key)
    (h : scavengeOne buffer key = some s) :
    s + key.size ≤ buffer.length ∧
    (window buffer s key.size).Nodup ∧
    (∀ c, c ∈ window buffer s key.size ↔ key.hasColor c = true) := by
  unfold scavengeOne at h
  have hmem := List.mem_of_find?_eq_some h
  have hpred := List.find?_some h
  have hs : s < buffer.length - key.size := List.mem_range.mp hmem
  have hbound : s + key.size ≤ buffer.length := by omega
  have hw256 : ∀ c ∈ window buffer s key.size, c < 256 := by
    intro c hc
    exact hbuf c (List.drop_subset _ _ (List.take_subset _ _ hc))
  have hwlen : (window buffer s key.size).length = key.size := window_length hbound
  have hwkgood : goodKey (keyOf (window buffer s key.size)) :=
    goodKey_keyOf _ hw256
  have hsub : keySub key (keyOf (window buffer s key.size)) := by
    have : (windowKey buffer s key.size).contains key = true := hpred
    unfold windowKey at this
    exact (contains_iff hwkgood.1 hkey.1).mp this
  have h1 : (keyOf (window buffer s key.size)).size ≤ key.size := by
    have := keyOf_size_le (window buffer s key.size)
    omega
  have h2 : key.size ≤ (keyOf (window buffer s key.size)).size :=
    keySub_size_le hkey hwkgood hsub
  have h3 : (keyOf (window buffer s key.size)).size = (window buffer s key.size).length := by
    omega
  have hnd : (window buffer s key.size).Nodup := (keyOf_size_eq_iff _ hw256).mp h3
  have hcnt : (List.range 256).countP (fun c => (keyOf (window buffer s key.size)).hasColor c)
      ≤ (List.range 256).countP (fun c => key.hasColor c) := by
    have ha := hwkgood.2
    have hb := hkey.2
    unfold sizeSpec at ha hb
    omega
  have hpoint : ∀ c, (keyOf (window buffer s key.size)).hasColor c = key.hasColor c := by
    intro c
    rcases Nat.lt_or_ge c 256 with hlt | hge
    · exact countP_eq_pointwise (fun x _ hx => hsub x hx) hcnt c (List.mem_range.mpr hlt)
    · rw [hasColor_of_ge _ hwkgood.1.1 hge, hasColor_of_ge _ hkey.1.1 hge]
  refine ⟨hbound, hnd, ?_⟩
  intro c
  rw [← hpoint c, hasColor_keyOf _ hw256 c]
  exact decide_eq_true_iff.symm

theorem scavengePass_inv {keys0 : List tilePaletteKey} {st : GenState} (size : Nat)
    (hinv : stInv keys0 st) : stInv keys0 (scavengePass size st) := by
  obtain ⟨hstarts, hcomp, hgood, hbuf⟩ := hinv
  unfold scavengePass
  refine ⟨?_, ?_, ?_, hbuf⟩
  · intro p hp
    rcases List.mem_append.mp hp with hnew | hold
    · obtain ⟨k, hkmem, hkeq⟩ := List.mem_map.mp hnew
      have hkf := List.mem_filter.mp hkmem
      have hksome : (scavengeOne st.buffer k).isSome := (Bool.and_eq_true _ _ |>.mp hkf.2).2
      obtain ⟨s, hs⟩ := Option.isSome_iff_exists.mp hksome
      have hspec := scavengeOne_spec hbuf (hgood k hkf.1) hs
      rw [← hkeq]
      simp only [hs, Option.getD_some]
      exact ⟨hspec.1, hspec.2.1, hspec.2.2⟩
    · exact hstarts p hold
  · intro k hk
    rcases hcomp k hk with hrem | hfound
    · rcases hcase : (k.size == size && (scavengeOne st.buffer k).isSome) with _ | _
      · left
        refine List.mem_filter.mpr ⟨hrem, ?_⟩
        rw [hcase]
        rfl
      · right
        obtain ⟨s, hs⟩ := Option.isSome_iff_exists.mp (Bool.and_eq_true _ _ |>.mp hcase).2
        refine ⟨s, ?_⟩
        apply List.mem_append.mpr
        left
        apply List.mem_map.mpr
        refine ⟨k, List.mem_filter.mpr ⟨hrem, hcase⟩, ?_⟩
        simp [hs]
    · right
      obtain ⟨s, hs⟩ := hfound
      exact ⟨s, List.mem_append.mpr (Or.inr hs)⟩
  · intro k hk
    exact hgood k (List.mem_of_mem_filter hk)

theorem nestedStep_inv {keys0 : List tilePaletteKey} {st : GenState}
    {key : tilePaletteKey} (hinv : stInv keys0 st) (hkey : goodKey key) :
    stInv keys0 (nestedStep st key) := by
  obtain ⟨hstarts, hcomp, hgood, hbuf⟩ := hinv
  have hwf := mkNested_wf PixelPerTile st.remainder hgood key hkey
  have hext := extract_spec PixelPerTile (mkNested PixelPerTile st.remainder key)
    hwf st.buffer.length
  obtain ⟨hlen, hnd, hmem, hmarks, hsizes, hroot⟩ := hext
  have hrk : (mkNested PixelPerTile st.remainder key).key = key :=
    mkNested_key _ _ _
  have hb256 : ∀ b ∈ (extractBufferF PixelPerTile
      (mkNested PixelPerTile st.remainder key) st.buffer.length).1, b < 256 := by
    intro b hb
    have := (hmem b).mp hb
    rw [hrk] at this
    exact hasColor_lt_256 key hkey.1.1 this
  unfold nestedStep
  dsimp only
  refine ⟨?_, ?_, ?_, ?_⟩
  · intro p hp
    rcases List.mem_append.mp hp with hnew | hold
    · obtain ⟨hso, hbound, hwnd, hwmem⟩ := hmarks p hnew
      refine ⟨?_, ?_, ?_⟩
      · rw [List.length_append]
        omega
      · have hsplit : p.2 = st.buffer.length + (p.2 - st.buffer.length) := by omega
        rw [hsplit, window_append_inner]
        exact hwnd
      · intro c
        have hsplit : p.2 = st.buffer.length + (p.2 - st.buffer.length) := by omega
        rw [hsplit, window_append_inner]
        exact hwmem c
    · exact entryOk_append (hstarts p hold)
  · intro k hk
    rcases hcomp k hk with hrem | hfound
    · rcases hcase : decide (k ∈ (extractBufferF PixelPerTile
          (mkNested PixelPerTile st.remainder key) st.buffer.length).2.map Prod.fst)
        with _ | _
      · left
        refine List.mem_filter.mpr ⟨hrem, ?_⟩
        rw [hcase]
        rfl
      · right
        have hmemk := of_decide_eq_true hcase
        obtain ⟨p, hp, hpk⟩ := List.mem_map.mp hmemk
        refine ⟨p.2, ?_⟩
        apply List.mem_append.mpr
        left
        rw [← hpk]
        exact hp
    · right
      obtain ⟨s, hs⟩ := hfound
      exact ⟨s, List.mem_append.mpr (Or.inr hs)⟩
  · intro k hk
    exact hgood k (List.mem_of_mem_filter hk)
  · intro b hb
    rcases List.mem_append.mp hb with h | h
    · exact hbuf b h
    · exact hb256 b h

theorem foldl_nestedStep_inv {keys0 : List tilePaletteKey} (L : List tilePaletteKey) :
    ∀ st : GenState, stInv keys0 st → (∀ k ∈ L, goodKey k) →
      stInv keys0 (L.foldl nestedStep st) := by
  induction L with
  | nil => exact fun st hinv _ => hinv
  | cons k rest ih =>
    intro st hinv hLgood
    rw [List.foldl_cons]
    exact ih _ (nestedStep_inv hinv (hLgood k (List.mem_cons_self _ _)))
      (fun x hx => hLgood x (List.mem_cons_of_mem _ hx))

theorem sizePass_inv {keys0 : List tilePaletteKey} {st : GenState} (size : Nat)
    (hinv : stInv keys0 st) : stInv keys0 (sizePass size st) := by
  unfold sizePass
  have hinv1 := scavengePass_inv size hinv
  exact foldl_nestedStep_inv _ _ hinv1
    (fun k hk => hinv1.2.2.1 k (List.mem_of_mem_filter hk))

theorem generateLoop_inv : ∀ (n : Nat) {keys0 : List tilePaletteKey} {st : GenState},
    stInv keys0 st → stInv keys0 (generateLoop n st) := by
  intro n
  induction n using Nat.strong_induction_on with
  | _ n ih =>
    rcases n with _ | _ | _ | m
    · exact fun h => h
    · exact fun h => h
    · exact fun h => h
    · intro keys0 st hinv
      exact ih (m + 2) (by omega) (sizePass_inv (m + 3) hinv)

theorem finalize_fold (rem : List tilePaletteKey) :
    ∀ lk : PaletteLookup,
      (∀ p ∈ lk.starts, entryOk lk.buffer p) →
      (∀ b ∈ lk.buffer, b < 256) →
      (∀ k ∈ rem, goodKey k) →
      (∀ p ∈ (rem.foldl (fun lk key =>
          ⟨lk.buffer ++ key.buffer, (key, lk.buffer.length) :: lk.starts⟩) lk).starts,
        entryOk (rem.foldl (fun lk key =>
          ⟨lk.buffer ++ key.buffer, (key, lk.buffer.length) :: lk.starts⟩) lk).buffer p) ∧
      (∀ k ∈ rem, ∃ s, (k, s) ∈ (rem.foldl (fun lk key =>
          ⟨lk.buffer ++ key.buffer, (key, lk.buffer.length) :: lk.starts⟩) lk).starts) ∧
      (∀ p ∈ lk.starts, p ∈ (rem.foldl (fun lk key =>
          ⟨lk.buffer ++ key.buffer, (key, lk.buffer.length) :: lk.starts⟩) lk).starts) := by
  induction rem with
  | nil =>
    intro lk hok _ _
    exact ⟨hok, fun k hk => absurd hk (by simp), fun p hp => hp⟩
  | cons key rest ih =>
    intro lk hok hb256 hgood
    have hkgood : goodKey key := hgood key (List.mem_cons_self _ _)
    have hstep : ∀ p ∈ ((key, lk.buffer.length) :: lk.starts : List (tilePaletteKey × Nat)),
        entryOk (lk.buffer ++ key.buffer) p := by
      intro p hp
      rcases List.mem_cons.mp hp with rfl | hold
      · refine ⟨?_, ?_, ?_⟩
        · rw [List.length_append, buffer_length key hkgood]
        · have : window (lk.buffer ++ key.buffer) lk.buffer.length key.size
              = key.buffer := by
            have h0 : lk.buffer.length = lk.buffer.length + 0 := by omega
            rw [h0, window_append_inner, window, List.drop_zero,
              ← buffer_length key hkgood, List.take_length]
          rw [this]
          exact buffer_nodup key
        · intro c
          have : window (lk.buffer ++ key.buffer) lk.buffer.length key.size
                = key.buffer := by
            have h0 : lk.buffer.length = lk.buffer.length + 0 := by omega
            rw [h0, window_append_inner, window, List.drop_zero,
              ← buffer_length key hkgood, List.take_length]
          rw [this]
          exact mem_buffer_iff key hkgood.1 c
      · exact entryOk_append (hok p hold)
    have hb256' : ∀ b ∈ lk.buffer ++ key.buffer, b < 256 := by
      intro b hb
      rcases List.mem_append.mp hb with h | h
      · exact hb256 b h
      · exact buffer_lt_256 key b h
    obtain ⟨h1, h2, h3⟩ := ih ⟨lk.buffer ++ key.buffer, (key, lk.buffer.length) :: lk.starts⟩
      hstep hb256' (fun k hk => hgood k (List.mem_cons_of_mem _ hk))
    rw [List.foldl_cons]
    refine ⟨h1, ?_, ?_⟩
    · intro k hk
      rcases List.mem_cons.mp hk with rfl | hkr
      · exact ⟨lk.buffer.length, h3 _ (List.mem_cons_self _ _)⟩
      · exact h2 k hkr
    · intro p hp
      exact h3 p (List.mem_cons_of_mem _ hp)

/-- The master postcondition of `Generate`: every starts binding denotes an
in-bounds, duplicate-free window holding exactly its key's colors, and every
registered key receives a binding. -/
theorem generateKeys_post (keys : List tilePaletteKey)
    (hgood : ∀ k ∈ keys, goodKey k) :
    (∀ p ∈ (generateKeys keys).starts, entryOk (generateKeys keys).buffer p) ∧
    (∀ k ∈ keys, ∃ s, (k, s) ∈ (generateKeys keys).starts) := by
  have hinv0 : stInv keys ⟨[], [], keys⟩ := by
    refine ⟨?_, ?_, ?_, ?_⟩
    · intro p hp
      cases hp
    · intro k hk
      exact Or.inl hk
    · exact hgood
    · intro b hb
      cases hb
  have hinv := generateLoop_inv PixelPerTile hinv0
  have hgen : generateKeys keys = finalize (generateLoop PixelPerTile ⟨[], [], keys⟩) := rfl
  rw [hgen]
  revert hinv
  generalize generateLoop PixelPerTile ⟨[], [], keys⟩ = st
  intro hinv
  obtain ⟨hstarts, hcomp, hrgood, hbuf⟩ := hinv
  have hfin : finalize st = st.remainder.foldl
      (fun lk key => ⟨lk.buffer ++ key.buffer, (key, lk.buffer.length) :: lk.starts⟩)
      ⟨st.buffer, st.starts⟩ := rfl
  rw [hfin]
  obtain ⟨h1, h2, h3⟩ := finalize_fold st.remainder ⟨st.buffer, st.starts⟩
    hstarts hbuf hrgood
  refine ⟨h1, ?_⟩
  intro k hk
  rcases hcomp k hk with hrem | ⟨s, hs⟩
  · exact h2 k hrem
  · exact ⟨s, h3 (k, s) hs⟩

/- ### Registration bookkeeping -/

theorem bumpUse_mem (l : List (tilePaletteKey × Nat)) (key : tilePaletteKey) :
    key ∈ (bumpUse l key).map Prod.fst := by
  induction l with
  | nil => simp [bumpUse]
  | cons p rest ih =>
    obtain ⟨k, n⟩ := p
    unfold bumpUse
    rcases eq_or_ne k key with rfl | hne
    · simp
    · rw [if_neg hne]
      simpa using Or.inr (by simpa using ih)

theorem bumpUse_keys (l : List (tilePaletteKey × Nat)) (key : tilePaletteKey) :
    ∀ k ∈ (bumpUse l key).map Prod.fst, k = key ∨ k ∈ l.map Prod.fst := by
  induction l with
  | nil =>
    intro k hk
    simp [bumpUse] at hk
    exact Or.inl hk
  | cons p rest ih =>
    obtain ⟨k', n⟩ := p
    intro k hk
    unfold bumpUse at hk
    rcases eq_or_ne k' key with rfl | hne
    · rw [if_pos rfl] at hk
      simp at hk
      rcases hk with h | h
      · exact Or.inl h
      · exact Or.inr (by simp [h])
    · rw [if_neg hne] at hk
      simp at hk
      rcases hk with h | h
      · exact Or.inr (by simp [h])
      · rcases ih k (by simpa using h) with h' | h'
        · exact Or.inl h'
        · exact Or.inr (by simp; right; simpa using h')

theorem bumpUse_sub (l : List (tilePaletteKey × Nat)) (key : tilePaletteKey) :
    ∀ k ∈ l.map Prod.fst, k ∈ (bumpUse l key).map Prod.fst := by
  induction l with
  | nil =>
    intro k hk
    simp at hk
  | cons p rest ih =>
    obtain ⟨k', n⟩ := p
    intro k hk
    rw [List.map_cons, List.mem_cons] at hk
    unfold bumpUse
    rcases eq_or_ne k' key with rfl | hne
    · rw [if_pos rfl, List.map_cons, List.mem_cons]
      exact hk
    · rw [if_neg hne, List.map_cons, List.mem_cons]
      rcases hk with h | h
      · exact Or.inl h
      · exact Or.inr (ih k h)

theorem add_fold_spec (deltas : List (List Nat)) :
    ∀ gen : PaletteLookupGenerator,
      (∀ k ∈ (deltas.foldl PaletteLookupGenerator.Add gen).keyUses.map Prod.fst,
        k ∈ gen.keyUses.map Prod.fst ∨ ∃ d ∈ deltas, k = keyOf d) ∧
      (∀ k ∈ gen.keyUses.map Prod.fst,
        k ∈ (deltas.foldl PaletteLookupGenerator.Add gen).keyUses.map Prod.fst) ∧
      (∀ d ∈ deltas, 2 < (keyOf d).size →
        keyOf d ∈ (deltas.foldl PaletteLookupGenerator.Add gen).keyUses.map Prod.fst) := by
  induction deltas with
  | nil =>
    intro gen
    refine ⟨fun k hk => Or.inl hk, fun k hk => hk, ?_⟩
    intro d hd
    cases hd
  | cons d rest ih =>
    intro gen
    rw [List.foldl_cons]
    obtain ⟨ih1, ih2, ih3⟩ := ih (gen.Add d)
    have hAdd : ∀ k ∈ (gen.Add d).keyUses.map Prod.fst,
        k = keyOf d ∨ k ∈ gen.keyUses.map Prod.fst := by
      intro k hk
      unfold PaletteLookupGenerator.Add at hk
      dsimp only at hk
      split at hk
      · exact bumpUse_keys gen.keyUses (keyOf d) k hk
      · exact Or.inr hk
    have hAddSub : ∀ k ∈ gen.keyUses.map Prod.fst,
        k ∈ (gen.Add d).keyUses.map Prod.fst := by
      intro k hk
      unfold PaletteLookupGenerator.Add
      dsimp only
      split
      · exact bumpUse_sub gen.keyUses (keyOf d) k hk
      · exact hk
    refine ⟨?_, ?_, ?_⟩
    · intro k hk
      rcases ih1 k hk with h | ⟨d', hd', he⟩
      · rcases hAdd k h with h' | h'
        · exact Or.inr ⟨d, List.mem_cons_self _ _, h'⟩
        · exact Or.inl h'
      · exact Or.inr ⟨d', List.mem_cons_of_mem _ hd', he⟩
    · intro k hk
      exact ih2 k (hAddSub k hk)
    · intro d' hd' hsz
      rcases List.mem_cons.mp hd' with rfl | hd''
      · apply ih2
        unfold PaletteLookupGenerator.Add
        dsimp only
        rw [if_pos hsz]
        exact bumpUse_mem gen.keyUses (keyOf d')
      · exact ih3 d' hd'' hsz

/- ### Unfolding `Lookup` -/

theorem Lookup_eq_of_found {lookup : PaletteLookup} {tile : List Nat} {v : Nat}
    (h : startsLookup lookup.starts (keyOf tile) = some v) :
    lookup.Lookup tile
      = (v, window lookup.buffer v (keyOf tile).size,
        buildMask (bitLen ((keyOf tile).size - 1))
          (mappedArr (window lookup.buffer v (keyOf tile).size)) tile) := by
  unfold PaletteLookup.Lookup
  dsimp only
  rw [h]
  rfl

theorem Lookup_eq_of_miss {lookup : PaletteLookup} {tile : List Nat}
    (h : startsLookup lookup.starts (keyOf tile) = none) :
    lookup.Lookup tile
      = (0, (keyOf tile).buffer,
        buildMask (bitLen ((keyOf tile).size - 1))
          (mappedArr (keyOf tile).buffer) tile) := by
  unfold PaletteLookup.Lookup
  dsimp only
  rw [h]
  rfl

/- ### Size bounds for tile keys -/

theorem keyOf_size_pos {tile : List Nat} (hne : tile ≠ [])
    (hb : ∀ b ∈ tile, b < 256) : 1 ≤ (keyOf tile).size := by
  rcases tile with _ | ⟨c, rest⟩
  · exact absurd rfl hne
  · have hc : (keyOf (c :: rest)).hasColor c = true := by
      rw [hasColor_keyOf _ hb c]
      simp
    have hgood := goodKey_keyOf _ hb
    rw [hgood.2]
    unfold sizeSpec
    have hpos : 0 < (List.range 256).countP (fun x => (keyOf (c :: rest)).hasColor x) :=
      List.countP_pos_iff.mpr ⟨c, List.mem_range.mpr (hb c (by simp)), hc⟩
    omega

theorem size_le_two_pow_bitLen {n : Nat} (hn : 1 ≤ n) : n ≤ 2 ^ bitLen (n - 1) := by
  have := bitLen_lt (n - 1)
  omega

/- ### Buffer size accounting (monotone compression) -/

def sumSizes (l : List tilePaletteKey) : Nat := (l.map (fun k => k.size)).sum

theorem sumSizes_filter_le (p : tilePaletteKey → Bool) (l : List tilePaletteKey) :
    sumSizes (l.filter p) ≤ sumSizes l := by
  induction l with
  | nil => simp [sumSizes]
  | cons k rest ih =>
    rw [List.filter_cons]
    rcases h : p k with _ | _
    · simp only [Bool.false_eq_true, if_false]
      unfold sumSizes at ih ⊢
      simp only [List.map_cons, List.sum_cons]
      omega
    · simp only [if_true]
      unfold sumSizes at ih ⊢
      simp only [List.map_cons, List.sum_cons]
      omega

theorem sumSizes_filter_split (p : tilePaletteKey → Bool) (l : List tilePaletteKey) :
    sumSizes l = sumSizes (l.filter p) + sumSizes (l.filter (fun k => !(p k))) := by
  induction l with
  | nil => simp [sumSizes]
  | cons k rest ih =>
    rw [List.filter_cons, List.filter_cons]
    rcases h : p k with _ | _
    · rw [if_neg (by simp), if_pos (by simp)]
      unfold sumSizes at ih ⊢
      simp only [List.map_cons, List.sum_cons]
      omega
    · rw [if_pos rfl, if_neg (by simp)]
      unfold sumSizes at ih ⊢
      simp only [List.map_cons, List.sum_cons]
      omega

theorem sumSizes_filter_split' (p q : tilePaletteKey → Bool)
    (hpq : ∀ k, q k = !(p k)) (l : List tilePaletteKey) :
    sumSizes l = sumSizes (l.filter p) + sumSizes (l.filter q) := by
  rw [show l.filter q = l.filter (fun k => !(p k)) from
    List.filter_congr (fun x _ => hpq x)]
  exact sumSizes_filter_split p l

theorem sumSizes_ge_of_mem {l : List tilePaletteKey} {k : tilePaletteKey}
    (h : k ∈ l) : k.size ≤ sumSizes l := by
  induction l with
  | nil => cases h
  | cons k' rest ih =>
    unfold sumSizes at ih ⊢
    simp only [List.map_cons, List.sum_cons]
    rcases List.mem_cons.mp h with rfl | h'
    · omega
    · have := ih h'
      omega

/-- The buffer-plus-pool size invariant used for monotone compression. -/
def stInv6 (keys0 : List tilePaletteKey) (st : GenState) : Prop :=
  st.buffer.length + sumSizes st.remainder ≤ sumSizes keys0 ∧
  st.remainder.Nodup ∧
  (∀ k ∈ st.remainder, goodKey k)

theorem scavengePass_inv6 {keys0 : List tilePaletteKey} {st : GenState} (size : Nat)
    (hinv : stInv6 keys0 st) : stInv6 keys0 (scavengePass size st) := by
  obtain ⟨hsum, hnd, hgood⟩ := hinv
  unfold scavengePass
  refine ⟨?_, hnd.filter _, fun k hk => hgood k (List.mem_of_mem_filter hk)⟩
  have := sumSizes_filter_le
    (fun k => !(k.size == size && (scavengeOne st.buffer k).isSome)) st.remainder
  dsimp only
  omega

theorem nestedStep_inv6 {keys0 : List tilePaletteKey} {st : GenState}
    {key : tilePaletteKey} (hinv : stInv6 keys0 st) (hmem : key ∈ st.remainder) :
    stInv6 keys0 (nestedStep st key) ∧
    (∀ k' ∈ st.remainder, k' ≠ key → k'.size = key.size →
      k' ∈ (nestedStep st key).remainder) := by
  obtain ⟨hsum, hnd, hgood⟩ := hinv
  have hkey : goodKey key := hgood key hmem
  have hwf := mkNested_wf PixelPerTile st.remainder hgood key hkey
  have hext := extract_spec PixelPerTile (mkNested PixelPerTile st.remainder key)
    hwf st.buffer.length
  obtain ⟨hlen, _, _, _, hsizes, hroot⟩ := hext
  have hrk : (mkNested PixelPerTile st.remainder key).key = key := mkNested_key _ _ _
  rw [hrk] at hlen hsizes hroot
  constructor
  · unfold nestedStep
    dsimp only
    refine ⟨?_, hnd.filter _, fun k hk => hgood k (List.mem_of_mem_filter hk)⟩
    rw [List.length_append, hlen]
    have hsplit := sumSizes_filter_split'
      (fun k => decide (k ∈ (extractBufferF PixelPerTile
        (mkNested PixelPerTile st.remainder key) st.buffer.length).2.map Prod.fst))
      (fun k => !(decide (k ∈ (extractBufferF PixelPerTile
        (mkNested PixelPerTile st.remainder key) st.buffer.length).2.map Prod.fst)))
      (fun k => rfl) st.remainder
    have hkeyrm : key ∈ st.remainder.filter
        (fun k => decide (k ∈ (extractBufferF PixelPerTile
          (mkNested PixelPerTile st.remainder key) st.buffer.length).2.map Prod.fst)) := by
      refine List.mem_filter.mpr ⟨hmem, ?_⟩
      exact decide_eq_true (List.mem_map.mpr ⟨(key, st.buffer.length), hroot, rfl⟩)
    have hge := sumSizes_ge_of_mem hkeyrm
    dsimp only
    omega
  · intro k' hk' hne hsz
    unfold nestedStep
    dsimp only
    refine List.mem_filter.mpr ⟨hk', ?_⟩
    have : k' ∉ (extractBufferF PixelPerTile
        (mkNested PixelPerTile st.remainder key) st.buffer.length).2.map Prod.fst := by
      intro hcon
      obtain ⟨p, hp, hpk⟩ := List.mem_map.mp hcon
      rcases hsizes p hp with heq | hlt
      · rw [heq] at hpk
        exact hne hpk.symm
      · rw [hpk] at hlt
        omega
    simp [this]

theorem foldl_nestedStep_inv6 {keys0 : List tilePaletteKey} (size : Nat)
    (L : List tilePaletteKey) :
    ∀ st : GenState, stInv6 keys0 st →
      (∀ k ∈ L, k ∈ st.remainder ∧ k.size = size) → L.Nodup →
      stInv6 keys0 (L.foldl nestedStep st) := by
  induction L with
  | nil => exact fun st hinv _ _ => hinv
  | cons key rest ih =>
    intro st hinv hL hnd
    rw [List.foldl_cons]
    obtain ⟨hstep, hkeep⟩ := nestedStep_inv6 hinv (hL key (List.mem_cons_self _ _)).1
    apply ih _ hstep _ (List.nodup_cons.mp hnd).2
    intro k hk
    have hne : k ≠ key := by
      rintro rfl
      exact (List.nodup_cons.mp hnd).1 hk
    have h1 := hL k (List.mem_cons_of_mem _ hk)
    have h2 := hL key (List.mem_cons_self _ _)
    exact ⟨hkeep k h1.1 hne (by omega), h1.2⟩

theorem sizePass_inv6 {keys0 : List tilePaletteKey} {st : GenState} (size : Nat)
    (hinv : stInv6 keys0 st) : stInv6 keys0 (sizePass size st) := by
  unfold sizePass
  have hinv1 := scavengePass_inv6 size hinv
  apply foldl_nestedStep_inv6 size _ _ hinv1 _ (hinv1.2.1.filter _)
  intro k hk
  have hkf := List.mem_filter.mp hk
  exact ⟨hkf.1, beq_iff_eq.mp hkf.2⟩

theorem generateLoop_inv6 : ∀ (n : Nat) {keys0 : List tilePaletteKey} {st : GenState},
    stInv6 keys0 st → stInv6 keys0 (generateLoop n st) := by
  intro n
  induction n using Nat.strong_induction_on with
  | _ n ih =>
    rcases n with _ | _ | _ | m
    · exact fun h => h
    · exact fun h => h
    · exact fun h => h
    · intro keys0 st hinv
      exact ih (m + 2) (by omega) (sizePass_inv6 (m + 3) hinv)

theorem finalize_buffer_length (rem : List tilePaletteKey) :
    ∀ lk : PaletteLookup, (∀ k ∈ rem, goodKey k) →
      (rem.foldl (fun lk key =>
        ⟨lk.buffer ++ key.buffer, (key, lk.buffer.length) :: lk.starts⟩) lk).buffer.length
      = lk.buffer.length + sumSizes rem := by
  induction rem with
  | nil =>
    intro lk _
    simp [sumSizes]
  | cons key rest ih =>
    intro lk hgood
    rw [List.foldl_cons, ih _ (fun k hk => hgood k (List.mem_cons_of_mem _ hk))]
    unfold sumSizes
    simp only [List.map_cons, List.sum_cons, List.length_append]
    rw [buffer_length key (hgood key (List.mem_cons_self _ _))]
    omega

theorem generateKeys_buffer_le (keys : List tilePaletteKey)
    (hgood : ∀ k ∈ keys, goodKey k) (hnd : keys.Nodup) :
    (generateKeys keys).buffer.length ≤ sumSizes keys := by
  have hinv0 : stInv6 keys ⟨[], [], keys⟩ := by
    refine ⟨?_, hnd, hgood⟩
    simp
  have hinv := generateLoop_inv6 PixelPerTile hinv0
  have hgen : generateKeys keys = finalize (generateLoop PixelPerTile ⟨[], [], keys⟩) := rfl
  rw [hgen]
  revert hinv
  generalize generateLoop PixelPerTile ⟨[], [], keys⟩ = st
  intro hinv
  obtain ⟨hsum, _, hrgood⟩ := hinv
  have hfin : finalize st = st.remainder.foldl
      (fun lk key => ⟨lk.buffer ++ key.buffer, (key, lk.buffer.length) :: lk.starts⟩)
      ⟨st.buffer, st.starts⟩ := rfl
  rw [hfin, finalize_buffer_length st.remainder ⟨st.buffer, st.starts⟩ hrgood]
  dsimp only
  omega

/- ### The scavenging scan finds the first hit -/

theorem find?_range'_spec (n : Nat) :
    ∀ (start : Nat) (p : Nat → Bool),
      (∀ s, (List.range' start n).find? p = some s →
        p s = true ∧ start ≤ s ∧ s < start + n ∧
        ∀ j, start ≤ j → j < s → p j = false) ∧
      ((∃ s, start ≤ s ∧ s < start + n ∧ p s = true) →
        ((List.range' start n).find? p).isSome = true) := by
  induction n with
  | zero =>
    intro start p
    constructor
    · intro s h
      cases h
    · rintro ⟨s, h1, h2, _⟩
      omega
  | succ n ih =>
    intro start p
    rw [List.range'_succ]
    rcases hp : p start with _ | _
    · rw [List.find?_cons_of_neg _ (by simp [hp])]
      obtain ⟨ih1, ih2⟩ := ih (start + 1) p
      constructor
      · intro s h
        obtain ⟨h1, h2, h3, h4⟩ := ih1 s h
        refine ⟨h1, by omega, by omega, ?_⟩
        intro j hj1 hj2
        rcases eq_or_ne j start with rfl | hne
        · exact hp
        · exact h4 j (by omega) hj2
      · rintro ⟨s, h1, h2, h3⟩
        apply ih2
        refine ⟨s, ?_, by omega, h3⟩
        rcases eq_or_ne s start with rfl | hne
        · rw [hp] at h3
          cases h3
        · omega
    · rw [List.find?_cons_of_pos _ hp]
      constructor
      · intro s h
        cases h
        exact ⟨hp, le_rfl, by omega, fun j hj1 hj2 => by omega⟩
      · intro _
        rfl

theorem scavengeOne_least {buffer : List Nat} {key : tilePaletteKey} {s : Nat}
    (h : scavengeOne buffer key = some s) :
    (windowKey buffer s key.size).contains key = true ∧
    s < buffer.length - key.size ∧
    ∀ j, j < s → (windowKey buffer j key.size).contains key = false := by
  unfold scavengeOne at h
  rw [List.range_eq_range'] at h
  obtain ⟨h1, _, h3, h4⟩ := (find?_range'_spec (buffer.length - key.size) 0
    (fun start => (windowKey buffer start key.size).contains key)).1 s h
  exact ⟨h1, by omega, fun j hj => h4 j (by omega) hj⟩

theorem scavengeOne_isSome {buffer : List Nat} {key : tilePaletteKey}
    (hex : ∃ s, s < buffer.length - key.size ∧
      (windowKey buffer s key.size).contains key = true) :
    (scavengeOne buffer key).isSome = true := by
  unfold scavengeOne
  rw [List.range_eq_range']
  apply (find?_range'_spec (buffer.length - key.size) 0
    (fun start => (windowKey buffer start key.size).contains key)).2
  obtain ⟨s, h1, h2⟩ := hex
  exact ⟨s, by omega, by omega, h2⟩

/- ### Bitset laws (union, intersection, popcount) -/

/-- The union of two palette keys as the specification's bitset law states it:
the key holding every color of either operand. -/
def specUnion (a b : tilePaletteKey) : tilePaletteKey :=
  keyOf ((List.range 256).filter (fun c => a.hasColor c || b.hasColor c))

/-- The cardinality of the intersection of two keys' color sets. -/
def interCard (a b : tilePaletteKey) : Nat :=
  ((List.range 256).filter (fun c => a.hasColor c && b.hasColor c)).length

/-- Population count, with the same self-fuel pattern as `bitLen`. -/
def popCountAux : Nat → Nat → Nat
  | 0, _ => 0
  | fuel + 1, m => if m = 0 then 0 else m % 2 + popCountAux fuel (m / 2)

def popCount (n : Nat) : Nat := popCountAux n n

/-- The keys constructible through the source operations `useColor` and
`without`, starting from the zero value. -/
inductive ReachableKey : tilePaletteKey → Prop where
  | empty : ReachableKey emptyKey
  | useColor {k : tilePaletteKey} {c : Nat} :
      ReachableKey k → c < 256 → ReachableKey (k.useColor c)
  | without {k o : tilePaletteKey} :
      ReachableKey k → ReachableKey o → ReachableKey (k.without o)

theorem reachable_good {k : tilePaletteKey} (h : ReachableKey k) : goodKey k := by
  induction h with
  | empty => exact goodKey_empty
  | useColor _ hc ih => exact goodKey_useColor _ hc ih
  | without _ _ _ _ => exact goodKey_without _ _

theorem word_ext_of_hasColor {A B : tilePaletteKey}
    (hA : wellFormedKey A) (hB : wellFormedKey B)
    (h : ∀ c, A.hasColor c = B.hasColor c) : ∀ i, A.word i = B.word i := by
  intro i
  apply Nat.eq_of_testBit_eq
  intro j
  rcases Nat.lt_or_ge j 64 with hj | hj
  · rcases Nat.lt_or_ge i 4 with hi | hi
    · have h1 : (64 * i + j) / 64 = i := by omega
      have h2 : (64 * i + j) % 64 = j := by omega
      have := h (64 * i + j)
      rw [hasColor_eq_testBit, hasColor_eq_testBit, h1, h2] at this
      exact this
    · have hA0 : A.word i = 0 := by
        unfold tilePaletteKey.word
        rw [List.getD_eq_getElem?_getD, List.getElem?_eq_none (by rw [hA.1]; omega)]
        rfl
      have hB0 : B.word i = 0 := by
        unfold tilePaletteKey.word
        rw [List.getD_eq_getElem?_getD, List.getElem?_eq_none (by rw [hB.1]; omega)]
        rfl
      rw [hA0, hB0]
  · rw [testBit_ge_64 (word_lt A hA i) hj, testBit_ge_64 (word_lt B hB i) hj]

theorem key_ext {A B : tilePaletteKey} (hA : wellFormedKey A) (hB : wellFormedKey B)
    (hw : ∀ i, A.word i = B.word i) (hs : A.size = B.size) : A = B := by
  obtain ⟨la, sa⟩ := A
  obtain ⟨lb, sb⟩ := B
  have hla : la.length = 4 := hA.1
  have hlb : lb.length = 4 := hB.1
  rcases la with _ | ⟨a0, la⟩
  · simp at hla
  rcases la with _ | ⟨a1, la⟩
  · simp at hla
  rcases la with _ | ⟨a2, la⟩
  · simp at hla
  rcases la with _ | ⟨a3, la⟩
  · simp at hla
  rcases la with _ | ⟨a4, la⟩
  swap
  · simp at hla
  rcases lb with _ | ⟨b0, lb⟩
  · simp at hlb
  rcases lb with _ | ⟨b1, lb⟩
  · simp at hlb
  rcases lb with _ | ⟨b2, lb⟩
  · simp at hlb
  rcases lb with _ | ⟨b3, lb⟩
  · simp at hlb
  rcases lb with _ | ⟨b4, lb⟩
  swap
  · simp at hlb
  have h0 := hw 0
  have h1 := hw 1
  have h2 := hw 2
  have h3 := hw 3
  simp only [tilePaletteKey.word, List.getD_cons_zero, List.getD_cons_succ] at h0 h1 h2 h3
  simp only at hs
  subst h0 h1 h2 h3 hs
  rfl

/-- Rebuilding a good key from its color set yields the key itself. -/
theorem keyOf_canonical {A : tilePaletteKey} (h : goodKey A) :
    keyOf ((List.range 256).filter (fun c => A.hasColor c)) = A := by
  have hlt : ∀ c ∈ (List.range 256).filter (fun c => A.hasColor c), c < 256 :=
    fun c hc => List.mem_range.mp (List.mem_of_mem_filter hc)
  have hhas : ∀ c, (keyOf ((List.range 256).filter (fun c => A.hasColor c))).hasColor c
      = A.hasColor c := by
    intro c
    rw [hasColor_keyOf _ hlt c]
    rcases Nat.lt_or_ge c 256 with hc | hc
    · rcases hval : A.hasColor c with _ | _
      · have : c ∉ (List.range 256).filter (fun c => A.hasColor c) := by
          intro hmem
          have := (List.mem_filter.mp hmem).2
          rw [hval] at this
          cases this
        simp [this]
      · have : c ∈ (List.range 256).filter (fun c => A.hasColor c) :=
          List.mem_filter.mpr ⟨List.mem_range.mpr hc, hval⟩
        simp [this]
    · rw [hasColor_of_ge A h.1.1 hc]
      have : c ∉ (List.range 256).filter (fun c => A.hasColor c) := by
        intro hmem
        exact absurd (List.mem_range.mp (List.mem_of_mem_filter hmem)) (by omega)
      simp [this]
  have hgoodK := goodKey_keyOf _ hlt
  apply key_ext hgoodK.1 h.1 (word_ext_of_hasColor hgoodK.1 h.1 hhas)
  rw [hgoodK.2, h.2]
  unfold sizeSpec
  exact List.countP_congr (fun x _ => by rw [hhas x])

theorem popCountAux_spec (fuel : Nat) : ∀ m b, m ≤ fuel → m < 2 ^ b →
    popCountAux fuel m = (List.range b).countP (fun j => m.testBit j) := by
  induction fuel with
  | zero =>
    intro m b hm _
    have hm0 : m = 0 := by omega
    subst hm0
    rw [show popCountAux 0 0 = 0 from rfl, eq_comm, List.countP_eq_zero]
    intro a _
    simp
  | succ fuel ih =>
    intro m b hm hb
    rcases eq_or_ne m 0 with rfl | hne
    · rw [show popCountAux (fuel + 1) 0 = 0 from rfl, eq_comm, List.countP_eq_zero]
      intro a _
      simp
    · have hb1 : 1 ≤ b := by
        by_contra hcon
        have hb0 : b = 0 := by omega
        subst hb0
        simp at hb
        omega
      have hstep : popCountAux (fuel + 1) m = m % 2 + popCountAux fuel (m / 2) := by
        rw [show popCountAux (fuel + 1) m
            = if m = 0 then 0 else m % 2 + popCountAux fuel (m / 2) from rfl,
          if_neg hne]
      have hsplit : 2 ^ b = 2 * 2 ^ (b - 1) := by
        rw [← pow_succ']
        congr 1
        omega
      have ihm := ih (m / 2) (b - 1) (by omega) (by omega)
      rw [hstep, ihm]
      have hbeq : b = (b - 1) + 1 := by omega
      rw [hbeq, List.range_succ_eq_map, List.countP_cons, List.countP_map]
      have hcongr : (List.range (b - 1)).countP ((fun j => m.testBit j) ∘ Nat.succ)
          = (List.range (b - 1)).countP (fun j => (m / 2).testBit j) := by
        apply List.countP_congr
        intro x _
        show m.testBit (x + 1) = true ↔ (m / 2).testBit x = true
        rw [Nat.testBit_add_one]
      rw [hcongr]
      rcases Nat.mod_two_eq_zero_or_one m with hpar | hpar <;>
        rw [Nat.testBit_zero, hpar] <;> simp
      omega

theorem countP_range'_shift (n : Nat) :
    ∀ (a : Nat) (p : Nat → Bool),
      (List.range' a n).countP p = (List.range n).countP (fun j => p (a + j)) := by
  induction n with
  | zero =>
    intro a p
    rfl
  | succ n ih =>
    intro a p
    rw [List.range'_succ, List.countP_cons, List.range_succ_eq_map, List.countP_cons,
      List.countP_map, ih (a + 1) p]
    have hcongr : (List.range n).countP ((fun j => p (a + j)) ∘ Nat.succ)
        = (List.range n).countP (fun j => p (a + 1 + j)) := by
      apply List.countP_congr
      intro x _
      show p (a + (x + 1)) = true ↔ p (a + 1 + x) = true
      rw [show a + (x + 1) = a + 1 + x by omega]
    rw [hcongr]
    have : p (a + 0) = p a := by rw [Nat.add_zero]
    rw [this]

/-- The color count splits into the popcounts of the four words. -/
theorem sizeSpec_eq_words (A : tilePaletteKey) (hA : wellFormedKey A) :
    sizeSpec A
      = (List.range 64).countP (fun j => (A.word 0).testBit j)
      + (List.range 64).countP (fun j => (A.word 1).testBit j)
      + (List.range 64).countP (fun j => (A.word 2).testBit j)
      + (List.range 64).countP (fun j => (A.word 3).testBit j) := by
  unfold sizeSpec
  rw [List.range_eq_range']
  have hsplit : List.range' 0 256
      = ((List.range' 0 64 ++ List.range' 64 64) ++ List.range' 128 64)
        ++ List.range' 192 64 := by
    rw [List.range'_append_1, List.range'_append_1, List.range'_append_1]
  rw [hsplit, List.countP_append, List.countP_append, List.countP_append]
  have hblock : ∀ i, i < 4 →
      (List.range' (64 * i) 64).countP (fun c => A.hasColor c)
        = (List.range 64).countP (fun j => (A.word i).testBit j) := by
    intro i hi
    rw [countP_range'_shift 64 (64 * i) (fun c => A.hasColor c)]
    apply List.countP_congr
    intro j hj
    have hjr : j < 64 := List.mem_range.mp hj
    have h1 : (64 * i + j) / 64 = i := by omega
    have h2 : (64 * i + j) % 64 = j := by omega
    show A.hasColor (64 * i + j) = true ↔ (A.word i).testBit j = true
    rw [hasColor_eq_testBit, h1, h2]
  have hb0 := hblock 0 (by omega)
  have hb1 := hblock 1 (by omega)
  have hb2 := hblock 2 (by omega)
  have hb3 := hblock 3 (by omega)
  rw [show (64 : Nat) * 0 = 0 by omega] at hb0
  rw [show (64 : Nat) * 1 = 64 by omega] at hb1
  rw [show (64 : Nat) * 2 = 128 by omega] at hb2
  rw [show (64 : Nat) * 3 = 192 by omega] at hb3
  rw [hb0, hb1, hb2, hb3]

theorem popCount_word (A : tilePaletteKey) (hA : wellFormedKey A) (i : Nat) :
    popCount (A.word i) = (List.range 64).countP (fun j => (A.word i).testBit j) :=
  popCountAux_spec (A.word i) (A.word i) 64 le_rfl (word_lt A hA i)

/- ### Concrete fixtures -/

/-- A 16-pixel tile whose key is {10,20,30,40,50}. -/
def tileK1 : List Nat := [10, 20, 30, 40, 50, 10, 10, 10, 10, 10, 10, 10, 10, 10, 10, 10]

/-- A 16-pixel tile whose key is {10,30,50}. -/
def tileK2 : List Nat := [10, 30, 50, 10, 30, 50, 10, 30, 50, 10, 30, 50, 10, 30, 50, 10]

/-- A 16-pixel tile whose key is {3,7,9}. -/
def tile379 : List Nat := [3, 7, 9, 3, 7, 9, 3, 7, 9, 3, 7, 9, 3, 7, 9, 3]

/-- A 16-pixel tile whose key is {5,6} (too small to be registered). -/
def tile56 : List Nat := [5, 6, 5, 6, 5, 6, 5, 6, 5, 6, 5, 6, 5, 6, 5, 6]

/-- The lookup generated after registering only `tile379`. -/
def lk379 : PaletteLookup := ((⟨[]⟩ : PaletteLookupGenerator).Add tile379).Generate

/-- The lookup generated after registering `tileK1` then `tileK2`. -/
def lkC8 : PaletteLookup :=
  (((⟨[]⟩ : PaletteLookupGenerator).Add tileK1).Add tileK2).Generate

/- ### The claims -/

/-- **C1.** For every tile `T` registered via `Add` (its key has size ≥ 3),
after `Generate` the triple `(index, pal, mask)` returned by `Lookup T`
reconstructs the tile: with `bitSize = bitLen(key.size - 1)`,
`pal[(mask >> (i*bitSize)) & ((1 << bitSize) - 1)] = T[i]` for every
`i < PixelPerTile`. -/
theorem c1_registered_tile_roundtrip (deltas : List (List Nat))
    (hwf : ∀ d ∈ deltas, d.length = PixelPerTile ∧ ∀ b ∈ d, b < 256)
    (T : List Nat) (hT : T ∈ deltas) (hsize : 3 ≤ (keyOf T).size) :
    ∀ i, i < PixelPerTile →
      ((deltas.foldl PaletteLookupGenerator.Add ⟨[]⟩).Generate.Lookup T).2.1.getD
        ((((deltas.foldl PaletteLookupGenerator.Add ⟨[]⟩).Generate.Lookup T).2.2 >>>
            (i * bitLen ((keyOf T).size - 1))) &&&
          ((1 <<< bitLen ((keyOf T).size - 1)) - 1)) 0 = T.getD i 0 := by
  obtain ⟨hspec1, _, hspec3⟩ := add_fold_spec deltas ⟨[]⟩
  have hTb : ∀ b ∈ T, b < 256 := (hwf T hT).2
  have hgood : ∀ k ∈ (deltas.foldl PaletteLookupGenerator.Add ⟨[]⟩).keyUses.map Prod.fst,
      goodKey k := by
    intro k hk
    rcases hspec1 k hk with h | ⟨d, hd, heq⟩
    · cases h
    · rw [heq]
      exact goodKey_keyOf d (hwf d hd).2
  have hkeymem : keyOf T ∈ (deltas.foldl PaletteLookupGenerator.Add ⟨[]⟩).keyUses.map Prod.fst :=
    hspec3 T hT (by omega)
  have hpost := generateKeys_post _ hgood
  have hGen : (deltas.foldl PaletteLookupGenerator.Add ⟨[]⟩).Generate
      = generateKeys ((deltas.foldl PaletteLookupGenerator.Add ⟨[]⟩).keyUses.map Prod.fst) :=
    rfl
  obtain ⟨v, hv⟩ := startsLookup_isSome (hpost.2 (keyOf T) hkeymem)
  have hmem := startsLookup_mem hv
  obtain ⟨hbound, hnd, hmemw⟩ := hpost.1 _ hmem
  rw [hGen, Lookup_eq_of_found hv]
  dsimp only
  intro i hi
  have hkg : goodKey (keyOf T) := goodKey_keyOf T hTb
  have hTlen : T.length = 16 := (hwf T hT).1
  have hwinlen : (window (generateKeys
      ((deltas.foldl PaletteLookupGenerator.Add ⟨[]⟩).keyUses.map Prod.fst)).buffer
      v (keyOf T).size).length = (keyOf T).size := window_length hbound
  have hppt : PixelPerTile = 16 := rfl
  refine lookup_mask_reconstruct _ T _ hnd ?_ ?_ ?_ ?_ i (by omega)
  · intro c hc
    apply (hmemw c).mpr
    rw [hasColor_keyOf T hTb c]
    exact decide_eq_true hc
  · rw [hwinlen]
    exact size_le_two_pow_bitLen (by omega)
  · rw [hwinlen, hkg.2]
    unfold sizeSpec
    exact le_trans (List.countP_le_length _) (le_of_eq (by simp))
  · rw [hTlen]
    have hsz16 : (keyOf T).size ≤ 16 := by
      have := keyOf_size_le T
      omega
    have hb4 : bitLen ((keyOf T).size - 1) ≤ 4 := by
      apply bitLen_le
      have h16 : (2 : Nat) ^ 4 = 16 := by norm_num
      omega
    omega

/-- **C2.** After `Generate`, every registered key `K` (size ≥ 3) has an entry
in `starts`, and the set of bytes in the window `buffer[starts[K] .. starts[K]+K.size]`
is a superset of (hence, by the reverse inclusion, equal to) `K`. -/
theorem c2_dictionary_completeness (deltas : List (List Nat))
    (hwf : ∀ d ∈ deltas, d.length = PixelPerTile ∧ ∀ b ∈ d, b < 256)
    (T : List Nat) (hT : T ∈ deltas) (hsize : 3 ≤ (keyOf T).size) :
    ∃ s, startsLookup
        ((deltas.foldl PaletteLookupGenerator.Add ⟨[]⟩).Generate).starts (keyOf T)
        = some s ∧
      (∀ c, (keyOf T).hasColor c = true →
        c ∈ window ((deltas.foldl PaletteLookupGenerator.Add ⟨[]⟩).Generate).buffer
          s (keyOf T).size) ∧
      (∀ c, c ∈ window ((deltas.foldl PaletteLookupGenerator.Add ⟨[]⟩).Generate).buffer
          s (keyOf T).size → (keyOf T).hasColor c = true) := by
  obtain ⟨hspec1, _, hspec3⟩ := add_fold_spec deltas ⟨[]⟩
  have hgood : ∀ k ∈ (deltas.foldl PaletteLookupGenerator.Add ⟨[]⟩).keyUses.map Prod.fst,
      goodKey k := by
    intro k hk
    rcases hspec1 k hk with h | ⟨d, hd, heq⟩
    · cases h
    · rw [heq]
      exact goodKey_keyOf d (hwf d hd).2
  have hkeymem := hspec3 T hT (by omega)
  have hpost := generateKeys_post _ hgood
  have hGen : (deltas.foldl PaletteLookupGenerator.Add ⟨[]⟩).Generate
      = generateKeys ((deltas.foldl PaletteLookupGenerator.Add ⟨[]⟩).keyUses.map Prod.fst) :=
    rfl
  obtain ⟨v, hv⟩ := startsLookup_isSome (hpost.2 (keyOf T) hkeymem)
  obtain ⟨hbound, hnd, hmemw⟩ := hpost.1 _ (startsLookup_mem hv)
  rw [hGen]
  exact ⟨v, hv, fun c hc => (hmemw c).mpr hc, fun c hc => (hmemw c).mp hc⟩

/-- **C3.** After `Generate`, for every key `K` placed at offset `s` in `starts`,
the window `buffer[s .. s+K.size]` has no duplicate bytes, its length (hence its
cardinality as a multiset) equals `K.size`, and its members are exactly the
colors of `K`. -/
theorem c3_window_exact (keys : List tilePaletteKey)
    (hgood : ∀ k ∈ keys, goodKey k) :
    ∀ K s, (K, s) ∈ (generateKeys keys).starts →
      (window (generateKeys keys).buffer s K.size).Nodup ∧
      (window (generateKeys keys).buffer s K.size).length = K.size ∧
      (∀ c, c ∈ window (generateKeys keys).buffer s K.size ↔ K.hasColor c = true) := by
  intro K s hmem
  obtain ⟨hbound, hnd, hmemw⟩ := (generateKeys_post keys hgood).1 _ hmem
  exact ⟨hnd, window_length hbound, hmemw⟩

/-- **C6.** For any fixed list of distinct registered keys, the buffer produced
by `Generate` is no longer than the sum of `K.size` over those keys — the
length of the naive concatenation of the `K.buffer()` layouts. -/
theorem c6_monotone_compression (keys : List tilePaletteKey)
    (hgood : ∀ k ∈ keys, goodKey k) (hnd : keys.Nodup) :
    (generateKeys keys).buffer.length ≤ sumSizes keys :=
  generateKeys_buffer_le keys hgood hnd

/-- **C9.** After `Generate`, every entry of `starts` lies fully inside the
buffer: `starts[K] + K.size ≤ len(buffer)`, so the slice taken by `Lookup`
for a registered key is always in bounds. -/
theorem c9_starts_in_bounds (keys : List tilePaletteKey)
    (hgood : ∀ k ∈ keys, goodKey k) :
    ∀ K s, (K, s) ∈ (generateKeys keys).starts →
      s + K.size ≤ (generateKeys keys).buffer.length :=
  fun _ _ hmem => ((generateKeys_post keys hgood).1 _ hmem).1

/-- **C10.** For every tile whose key is absent from `starts`, `Lookup` still
returns a losslessly reconstructing pair: `pal = key.buffer()` lists the tile's
distinct colors in ascending order, and with `bitSize = bitLen(key.size - 1)`,
`pal[(mask >> (i*bitSize)) & ((1 << bitSize) - 1)] = tile[i]` for every
`i < PixelPerTile`. -/
theorem c10_miss_roundtrip (lookup : PaletteLookup) (tile : List Nat)
    (hlen : tile.length = PixelPerTile) (hb : ∀ b ∈ tile, b < 256)
    (hmiss : startsLookup lookup.starts (keyOf tile) = none) :
    (lookup.Lookup tile).2.1 = (keyOf tile).buffer ∧
    (lookup.Lookup tile).2.1.Pairwise (· < ·) ∧
    (∀ c, c ∈ (lookup.Lookup tile).2.1 ↔ c ∈ tile) ∧
    ∀ i, i < PixelPerTile →
      (lookup.Lookup tile).2.1.getD
        (((lookup.Lookup tile).2.2 >>> (i * bitLen ((keyOf tile).size - 1)))
          &&& ((1 <<< bitLen ((keyOf tile).size - 1)) - 1)) 0 = tile.getD i 0 := by
  rw [Lookup_eq_of_miss hmiss]
  dsimp only
  have hkg : goodKey (keyOf tile) := goodKey_keyOf tile hb
  have hne : tile ≠ [] := by
    intro h
    rw [h] at hlen
    exact absurd hlen (by decide)
  have hpos := keyOf_size_pos hne hb
  have hppt : PixelPerTile = 16 := rfl
  have hlen16 : tile.length = 16 := by omega
  have hblen : (keyOf tile).buffer.length = (keyOf tile).size := buffer_length _ hkg
  refine ⟨rfl, buffer_sorted _, ?_, ?_⟩
  · intro c
    rw [mem_buffer_iff _ hkg.1 c, hasColor_keyOf tile hb c]
    exact decide_eq_true_iff
  · intro i hi
    refine lookup_mask_reconstruct _ tile _ (buffer_nodup _) ?_ ?_ ?_ ?_ i (by omega)
    · intro c hc
      rw [mem_buffer_iff _ hkg.1 c, hasColor_keyOf tile hb c]
      exact decide_eq_true hc
    · rw [hblen]
      exact size_le_two_pow_bitLen hpos
    · rw [hblen, hkg.2]
      unfold sizeSpec
      exact le_trans (List.countP_le_length _) (le_of_eq (by simp))
    · rw [hlen16]
      have hsz16 : (keyOf tile).size ≤ 16 := by
        have := keyOf_size_le tile
        omega
      have h16 : (2 : Nat) ^ 4 = 16 := by norm_num
      have hb4 : bitLen ((keyOf tile).size - 1) ≤ 4 := bitLen_le _ 4 (by omega)
      omega

/-- **C4 (counterexample).** The prefix-scavenging scan stops at
`len(buffer) - key.size` *exclusive*, so a key whose only containing window
starts exactly at `len(buffer) - key.size` is never claimed.  With buffer
`[1,2,3,4]` and key `{2,3,4}` (size 3), the start `s = 1` is legal
(`1 ≤ 4 - 3`) and its window `[2,3,4]` contains the key, yet the size-3
scavenging pass records no start and leaves the key in the remainder pool. -/
theorem c4_counterexample :
    (1 + (keyOf [2, 3, 4]).size ≤ ([1, 2, 3, 4] : List Nat).length ∧
      (windowKey [1, 2, 3, 4] 1 (keyOf [2, 3, 4]).size).contains (keyOf [2, 3, 4])
        = true) ∧
    (scavengePass 3 ⟨[1, 2, 3, 4], [], [keyOf [2, 3, 4]]⟩).starts = [] ∧
    (scavengePass 3 ⟨[1, 2, 3, 4], [], [keyOf [2, 3, 4]]⟩).remainder
      = [keyOf [2, 3, 4]] := by
  refine ⟨⟨?_, ?_⟩, ?_, ?_⟩ <;> decide

/-- **C4 (amended).** The scavenging step claims a key of the current size
class exactly when some window at a start *strictly below*
`len(buffer) - key.size` contains it; the recorded start is the smallest such
one and the key is removed from the remainder pool before nested packing. -/
theorem c4_amended (st : GenState) (key : tilePaletteKey) (size : Nat)
    (hkey : key ∈ st.remainder) (hsz : key.size = size)
    (hex : ∃ s, s < st.buffer.length - key.size ∧
      (windowKey st.buffer s key.size).contains key = true) :
    ∃ s, (key, s) ∈ (scavengePass size st).starts ∧
      key ∉ (scavengePass size st).remainder ∧
      (windowKey st.buffer s key.size).contains key = true ∧
      ∀ j, j < s → (windowKey st.buffer j key.size).contains key = false := by
  have hsome := scavengeOne_isSome hex
  obtain ⟨s, hs⟩ := Option.isSome_iff_exists.mp hsome
  obtain ⟨h1, _, h3⟩ := scavengeOne_least hs
  have hpred : (key.size == size && (scavengeOne st.buffer key).isSome) = true := by
    rw [Bool.and_eq_true]
    exact ⟨by rw [hsz]; exact beq_self_eq_true size, hsome⟩
  have hfil : key ∈ st.remainder.filter
      (fun k => k.size == size && (scavengeOne st.buffer k).isSome) :=
    List.mem_filter.mpr ⟨hkey, hpred⟩
  refine ⟨s, ?_, ?_, h1, h3⟩
  · unfold scavengePass
    dsimp only
    refine List.mem_append.mpr (Or.inl (List.mem_map.mpr ⟨key, hfil, ?_⟩))
    show (key, (scavengeOne st.buffer key).getD 0) = (key, s)
    rw [hs]
    rfl
  · unfold scavengePass
    dsimp only
    intro hcon
    have hneg := (List.mem_filter.mp hcon).2
    rw [hpred] at hneg
    simp at hneg

/-- **C5 (counterexample).** `Lookup` on a tile whose key was never registered
returns the index 0 — Go's zero value for a map miss — which is *not*
distinguishable from a valid buffer offset: after registering only `tile379`,
the unregistered key {5,6} yields index 0 while 0 is simultaneously the valid
recorded start of the registered key {3,7,9}. -/
theorem c5_counterexample :
    startsLookup lk379.starts (keyOf tile56) = none ∧
    (lk379.Lookup tile56).1 = 0 ∧
    (keyOf tile379, 0) ∈ lk379.starts ∧
    (lk379.Lookup tile56).2.1 = [5, 6] := by
  refine ⟨?_, ?_, ?_, ?_⟩ <;> decide

/-- **C5 (amended).** When the tile's key is absent from `starts`, `Lookup`
returns index 0 (the Go zero value, which can coincide with a valid offset)
together with `localPalette = key.buffer()`: the tile's distinct colors in
ascending order. -/
theorem c5_amended (lookup : PaletteLookup) (tile : List Nat)
    (hb : ∀ b ∈ tile, b < 256)
    (hmiss : startsLookup lookup.starts (keyOf tile) = none) :
    (lookup.Lookup tile).1 = 0 ∧
    (lookup.Lookup tile).2.1 = (keyOf tile).buffer ∧
    (lookup.Lookup tile).2.1.Pairwise (· < ·) ∧
    (∀ c, c ∈ (lookup.Lookup tile).2.1 ↔ c ∈ tile) := by
  rw [Lookup_eq_of_miss hmiss]
  dsimp only
  have hkg : goodKey (keyOf tile) := goodKey_keyOf tile hb
  refine ⟨rfl, rfl, buffer_sorted _, ?_⟩
  intro c
  rw [mem_buffer_iff _ hkg.1 c, hasColor_keyOf tile hb c]
  exact decide_eq_true_iff

/-- **C7.** Bitset laws, for all keys reachable through the source operations
(`useColor` on colors < 256 and `without`, starting from the zero value):
`A.contains(B)` holds iff the union of A and B equals A; the size of
`A.without(B)` is `A.size` minus the cardinality of the intersection of A and
B; and the cached `size` equals the total popcount of the four words. -/
theorem c7_bitset_laws (A B : tilePaletteKey)
    (hA : ReachableKey A) (hB : ReachableKey B) :
    (A.contains B = true ↔ specUnion A B = A) ∧
    ((A.without B).size = A.size - interCard A B) ∧
    (A.size = popCount (A.word 0) + popCount (A.word 1)
      + popCount (A.word 2) + popCount (A.word 3)) := by
  have hAg := reachable_good hA
  have hBg := reachable_good hB
  refine ⟨⟨?_, ?_⟩, ?_, ?_⟩
  · intro hcont
    have hsub := (contains_iff hAg.1 hBg.1).mp hcont
    unfold specUnion
    have hfil : (List.range 256).filter (fun c => A.hasColor c || B.hasColor c)
        = (List.range 256).filter (fun c => A.hasColor c) := by
      apply List.filter_congr
      intro x _
      rcases hax : A.hasColor x with _ | _
      · rcases hbx : B.hasColor x with _ | _
        · rfl
        · have hax' := hsub x hbx
          rw [hax] at hax'
          cases hax'
      · rfl
    rw [hfil, keyOf_canonical hAg]
  · intro hun
    apply (contains_iff hAg.1 hBg.1).mpr
    intro c hc
    have hc256 : c < 256 := hasColor_lt_256 B hBg.1.1 hc
    have hhas : (specUnion A B).hasColor c = true := by
      unfold specUnion
      rw [hasColor_keyOf _ (fun x hx => List.mem_range.mp (List.mem_of_mem_filter hx)) c]
      apply decide_eq_true
      exact List.mem_filter.mpr ⟨List.mem_range.mpr hc256, by rw [hc]; simp⟩
    rw [hun] at hhas
    exact hhas
  · rw [size_without]
    have hsplit := countP_and_split (List.range 256)
      (fun c => A.hasColor c) (fun c => B.hasColor c)
    have hA2 := hAg.2
    unfold sizeSpec at hA2
    unfold interCard
    rw [← List.countP_eq_length_filter]
    omega
  · rw [hAg.2, sizeSpec_eq_words A hAg.1,
      popCount_word A hAg.1 0, popCount_word A hAg.1 1,
      popCount_word A hAg.1 2, popCount_word A hAg.1 3]

/-- **C8.** With exactly the keys K1 = {10,20,30,40,50} and K2 = {10,30,50}
registered (via the tiles `tileK1`, `tileK2`), `Generate` attaches K2 as a
nested child of K1 and produces buffer `[10,30,50,20,40]` — K2's bytes first,
then K1's remaining bytes in ascending order — with `starts[K2] = 0` and
`starts[K1] = 0`. -/
theorem c8_nested_example :
    ((mkNested PixelPerTile [keyOf tileK1, keyOf tileK2] (keyOf tileK1)).nested.map
        nestedEntry.key = [keyOf tileK2]) ∧
    lkC8.buffer = [10, 30, 50, 20, 40] ∧
    startsLookup lkC8.starts (keyOf tileK2) = some 0 ∧
    startsLookup lkC8.starts (keyOf tileK1) = some 0 := by
  refine ⟨?_, ?_, ?_, ?_⟩ <;> decide

/- ### Witness support -/

instance (key : tilePaletteKey) : Decidable (wellFormedKey key) := by
  unfold wellFormedKey
  infer_instance

instance (key : tilePaletteKey) : Decidable (goodKey key) := by
  unfold goodKey
  infer_instance

theorem reachable_foldl (l : List Nat) :
    ∀ k : tilePaletteKey, ReachableKey k → (∀ c ∈ l, c < 256) →
      ReachableKey (l.foldl tilePaletteKey.useColor k) := by
  induction l with
  | nil =>
    intro k hk _
    simpa using hk
  | cons c t ih =>
    intro k hk hl
    simp only [List.foldl_cons]
    exact ih _ (ReachableKey.useColor hk (hl c (by simp)))
      (fun d hd => hl d (by simp [hd]))

theorem reachable_keyOf (l : List Nat) (hl : ∀ c ∈ l, c < 256) :
    ReachableKey (keyOf l) :=
  reachable_foldl l emptyKey ReachableKey.empty hl

/- ### Witnesses -/

/-- C1 at the concrete tile `tile379`. -/
theorem c1_registered_tile_roundtrip_witness :
    (∀ d ∈ [tile379], d.length = PixelPerTile ∧ ∀ b ∈ d, b < 256) ∧
    tile379 ∈ [tile379] ∧ 3 ≤ (keyOf tile379).size ∧
    (∀ i, i < PixelPerTile →
      (([tile379].foldl PaletteLookupGenerator.Add ⟨[]⟩).Generate.Lookup
          tile379).2.1.getD
        (((([tile379].foldl PaletteLookupGenerator.Add ⟨[]⟩).Generate.Lookup
              tile379).2.2 >>>
            (i * bitLen ((keyOf tile379).size - 1))) &&&
          ((1 <<< bitLen ((keyOf tile379).size - 1)) - 1)) 0 = tile379.getD i 0) :=
  ⟨by decide, by decide, by decide,
    c1_registered_tile_roundtrip [tile379] (by decide) tile379 (by decide) (by decide)⟩

/-- C2 at the concrete tile `tileK1`. -/
theorem c2_dictionary_completeness_witness :
    (∀ d ∈ [tileK1], d.length = PixelPerTile ∧ ∀ b ∈ d, b < 256) ∧
    tileK1 ∈ [tileK1] ∧ 3 ≤ (keyOf tileK1).size ∧
    (∃ s, startsLookup
        (([tileK1].foldl PaletteLookupGenerator.Add ⟨[]⟩).Generate).starts (keyOf tileK1)
        = some s ∧
      (∀ c, (keyOf tileK1).hasColor c = true →
        c ∈ window (([tileK1].foldl PaletteLookupGenerator.Add ⟨[]⟩).Generate).buffer
          s (keyOf tileK1).size) ∧
      (∀ c, c ∈ window (([tileK1].foldl PaletteLookupGenerator.Add ⟨[]⟩).Generate).buffer
          s (keyOf tileK1).size → (keyOf tileK1).hasColor c = true)) :=
  ⟨by decide, by decide, by decide,
    c2_dictionary_completeness [tileK1] (by decide) tileK1 (by decide) (by decide)⟩

/-- C3 at the concrete key list `[keyOf tileK2]`. -/
theorem c3_window_exact_witness :
    (∀ k ∈ [keyOf tileK2], goodKey k) ∧
    (∀ K s, (K, s) ∈ (generateKeys [keyOf tileK2]).starts →
      (window (generateKeys [keyOf tileK2]).buffer s K.size).Nodup ∧
      (window (generateKeys [keyOf tileK2]).buffer s K.size).length = K.size ∧
      (∀ c, c ∈ window (generateKeys [keyOf tileK2]).buffer s K.size
        ↔ K.hasColor c = true)) :=
  ⟨by decide, c3_window_exact [keyOf tileK2] (by decide)⟩

/-- C4 (amended) at the concrete state with buffer `[1,2,3,4,5]` and key
`{2,3,4}`, whose only containing windows start at 1 and 2 with
`1 < 5 - 3`. -/
theorem c4_amended_witness :
    (keyOf [2, 3, 4] ∈ (⟨[1, 2, 3, 4, 5], [], [keyOf [2, 3, 4]]⟩ : GenState).remainder) ∧
    (keyOf [2, 3, 4]).size = 3 ∧
    (∃ s, s < (⟨[1, 2, 3, 4, 5], [], [keyOf [2, 3, 4]]⟩ : GenState).buffer.length
        - (keyOf [2, 3, 4]).size ∧
      (windowKey (⟨[1, 2, 3, 4, 5], [], [keyOf [2, 3, 4]]⟩ : GenState).buffer s
        (keyOf [2, 3, 4]).size).contains (keyOf [2, 3, 4]) = true) ∧
    (∃ s, (keyOf [2, 3, 4], s)
        ∈ (scavengePass 3 ⟨[1, 2, 3, 4, 5], [], [keyOf [2, 3, 4]]⟩).starts ∧
      keyOf [2, 3, 4]
        ∉ (scavengePass 3 ⟨[1, 2, 3, 4, 5], [], [keyOf [2, 3, 4]]⟩).remainder ∧
      (windowKey (⟨[1, 2, 3, 4, 5], [], [keyOf [2, 3, 4]]⟩ : GenState).buffer s
        (keyOf [2, 3, 4]).size).contains (keyOf [2, 3, 4]) = true ∧
      ∀ j, j < s →
        (windowKey (⟨[1, 2, 3, 4, 5], [], [keyOf [2, 3, 4]]⟩ : GenState).buffer j
          (keyOf [2, 3, 4]).size).contains (keyOf [2, 3, 4]) = false) :=
  ⟨by decide, by decide, ⟨1, by decide, by decide⟩,
    c4_amended ⟨[1, 2, 3, 4, 5], [], [keyOf [2, 3, 4]]⟩ (keyOf [2, 3, 4]) 3
      (by decide) (by decide) ⟨1, by decide, by decide⟩⟩

/-- C5 (amended) at the concrete lookup `lk379` and the unregistered tile
`tile56`. -/
theorem c5_amended_witness :
    (∀ b ∈ tile56, b < 256) ∧
    startsLookup lk379.starts (keyOf tile56) = none ∧
    ((lk379.Lookup tile56).1 = 0 ∧
     (lk379.Lookup tile56).2.1 = (keyOf tile56).buffer ∧
     (lk379.Lookup tile56).2.1.Pairwise (· < ·) ∧
     (∀ c, c ∈ (lk379.Lookup tile56).2.1 ↔ c ∈ tile56)) :=
  ⟨by decide, by decide, c5_amended lk379 tile56 (by decide) (by decide)⟩

/-- C6 at the concrete key list `[keyOf tileK1, keyOf tileK2]`. -/
theorem c6_monotone_compression_witness :
    (∀ k ∈ [keyOf tileK1, keyOf tileK2], goodKey k) ∧
    [keyOf tileK1, keyOf tileK2].Nodup ∧
    (generateKeys [keyOf tileK1, keyOf tileK2]).buffer.length
      ≤ sumSizes [keyOf tileK1, keyOf tileK2] :=
  ⟨by decide, by decide,
    c6_monotone_compression [keyOf tileK1, keyOf tileK2] (by decide) (by decide)⟩

/-- C7 at the concrete keys `{10,20,30}` and `{20,40}`. -/
theorem c7_bitset_laws_witness :
    ReachableKey (keyOf [10, 20, 30]) ∧ ReachableKey (keyOf [20, 40]) ∧
    (((keyOf [10, 20, 30]).contains (keyOf [20, 40]) = true
        ↔ specUnion (keyOf [10, 20, 30]) (keyOf [20, 40]) = keyOf [10, 20, 30]) ∧
     (((keyOf [10, 20, 30]).without (keyOf [20, 40])).size
        = (keyOf [10, 20, 30]).size - interCard (keyOf [10, 20, 30]) (keyOf [20, 40])) ∧
     ((keyOf [10, 20, 30]).size
        = popCount ((keyOf [10, 20, 30]).word 0) + popCount ((keyOf [10, 20, 30]).word 1)
          + popCount ((keyOf [10, 20, 30]).word 2)
          + popCount ((keyOf [10, 20, 30]).word 3))) :=
  ⟨reachable_keyOf [10, 20, 30] (by decide), reachable_keyOf [20, 40] (by decide),
    c7_bitset_laws (keyOf [10, 20, 30]) (keyOf [20, 40])
      (reachable_keyOf [10, 20, 30] (by decide)) (reachable_keyOf [20, 40] (by decide))⟩

/-- C9 at the concrete key list `[keyOf tile379]`. -/
theorem c9_starts_in_bounds_witness :
    (∀ k ∈ [keyOf tile379], goodKey k) ∧
    (∀ K s, (K, s) ∈ (generateKeys [keyOf tile379]).starts →
      s + K.size ≤ (generateKeys [keyOf tile379]).buffer.length) :=
  ⟨by decide, c9_starts_in_bounds [keyOf tile379] (by decide)⟩

/-- C10 at the empty lookup and the tile `tile56`, whose key (size 2) is
absent from `starts`. -/
theorem c10_miss_roundtrip_witness :
    tile56.length = PixelPerTile ∧ (∀ b ∈ tile56, b < 256) ∧
    startsLookup (⟨[], []⟩ : PaletteLookup).starts (keyOf tile56) = none ∧
    (((⟨[], []⟩ : PaletteLookup).Lookup tile56).2.1 = (keyOf tile56).buffer ∧
     ((⟨[], []⟩ : PaletteLookup).Lookup tile56).2.1.Pairwise (· < ·) ∧
     (∀ c, c ∈ ((⟨[], []⟩ : PaletteLookup).Lookup tile56).2.1 ↔ c ∈ tile56) ∧
     ∀ i, i < PixelPerTile →
       ((⟨[], []⟩ : PaletteLookup).Lookup tile56).2.1.getD
         ((((⟨[], []⟩ : PaletteLookup).Lookup tile56).2.2 >>>
             (i * bitLen ((keyOf tile56).size - 1)))
           &&& ((1 <<< bitLen ((keyOf tile56).size - 1)) - 1)) 0 = tile56.getD i 0) :=
  ⟨by decide, by decide, by decide,
    c10_miss_roundtrip ⟨[], []⟩ tile56 (by decide) (by decide) (by decide)⟩
